import Mathlib

/-!
# Verification of the listy product-preview enrichment pipeline

Shallow embedding of the product-preview enrichment pipeline of the
`crdenn/listy` repository:

* `src/src/lib/product-ingest/normalizeUrl.ts` (URL normalizer),
* the merge/score module (`mergePreviews`, `scorePreview`),
* `src/src/lib/product-ingest/extractFromDiffbot.ts` (Stage-2 adapter),
* the Bright Data adapter `extractFromBrightData` (Stage-3 adapter),
* `src/src/app/api/products/ingest/route.ts` (`checkRateLimit`,
  `getCachedPreview`, `isWeakPreview`, `needsBetterData`, `POST`).

Modelling conventions:

* JavaScript numbers are modelled as rationals (`ℚ`).  All confidence values
  reachable in the pipeline are finite sums of the literals
  0.35, 0.25, 0.25, 0.1 compared against 0.75 / 0.95 / 1; for these the IEEE
  double computations of the source agree with exact rational arithmetic
  (the rounded double of 0.35+0.25+0.25+0.1 is exactly the double of the
  literal 0.95), so the rational model is behaviourally faithful.
* JavaScript optional / nullable values are `Option`; JS string truthiness
  (`undefined`, `null` and `""` are falsy) is `strTruthy`.
* External I/O (HTTP fetches, JSON bodies, the document store, the clock)
  is supplied by explicit "world" records; a JS exception that the source
  does not catch is `Except.error ()`.
* The WHATWG `URL` platform class used by `normalizeUrl` is modelled by an
  executable parser/serializer over a documented fragment of URL syntax
  (see the URL section below for its exact scope).
* SHA-256 (`crypto.createHash('sha256')`) is an opaque platform primitive;
  it is passed in as an arbitrary function `sha : String → String`, which is
  all the stated properties need (the hash is a function of the normalized
  string only).
-/

set_option maxHeartbeats 1000000

namespace ListyIngest

/-! ## Generic JavaScript-semantics helpers -/

/-- JS truthiness for an optional string: `undefined`/`null`/`""` are falsy. -/
def strTruthy : Option String → Bool
  | none => false
  | some s => s ≠ ""

/-- JS `a || b` on optional strings (falls through on `undefined` and `""`). -/
def jsOrStr (a b : Option String) : Option String :=
  if strTruthy a then a else b

/-- `Except.isOk`-style test. -/
def exOk {ε α : Type} : Except ε α → Bool
  | .ok _ => true
  | .error _ => false

instance {ε α : Type} [DecidableEq ε] [DecidableEq α] : DecidableEq (Except ε α) :=
  fun x y =>
    match x, y with
    | .ok a, .ok b =>
      if h : a = b then .isTrue (by rw [h]) else .isFalse (by simp [h])
    | .error a, .error b =>
      if h : a = b then .isTrue (by rw [h]) else .isFalse (by simp [h])
    | .ok _, .error _ => .isFalse (by simp)
    | .error _, .ok _ => .isFalse (by simp)

/-- Split a character list at the first occurrence of `c`:
returns the part before it and, when `c` occurs, the part after it. -/
def breakAt (c : Char) : List Char → List Char × Option (List Char)
  | [] => ([], none)
  | x :: xs =>
    if x = c then ([], some xs)
    else
      let r := breakAt c xs
      (x :: r.1, r.2)

/-- `pat` is a prefix of the second list. -/
def listStartsWith : List Char → List Char → Bool
  | [], _ => true
  | _ :: _, [] => false
  | p :: ps, c :: cs => p = c && listStartsWith ps cs

/-- `pat` occurs as a contiguous sublist (JS `String.prototype.includes`). -/
def listHasSub (pat : List Char) : List Char → Bool
  | [] => listStartsWith pat []
  | c :: cs => listStartsWith pat (c :: cs) || listHasSub pat cs

/-- JS `s.includes(pat)`. -/
def strContains (s pat : String) : Bool :=
  listHasSub pat.data s.data

/-- Strip leading and trailing whitespace (JS `String.prototype.trim`,
over the ASCII whitespace class of `Char.isWhitespace`). -/
def trimList (l : List Char) : List Char :=
  ((l.dropWhile Char.isWhitespace).reverse.dropWhile Char.isWhitespace).reverse

/-- `s.trim()` (kernel-reducible model of string trimming). -/
def jsTrim (s : String) : String :=
  String.mk (trimList s.data)

/-- Decimal value of a digit list (used for already-validated digit runs). -/
def digitsVal (l : List Char) : Nat :=
  l.foldl (fun a c => a * 10 + (c.toNat - 48)) 0

/-- JS `Number(s)` on a string consisting only of digits and dots
(the shape produced by stripping a price string with `/[^0-9.]/g`):
`"" ↦ 0`, one optional dot with at least one digit parses, two dots or a
lone dot are `NaN` (`none`). -/
def jsParseCleaned (l : List Char) : Option ℚ :=
  if l = [] then some 0
  else
    match breakAt '.' l with
    | (intPart, none) => some (digitsVal intPart : ℚ)
    | (intPart, some fracPart) =>
      if fracPart.contains '.' then none
      else if intPart = [] ∧ fracPart = [] then none
      else some ((digitsVal intPart : ℚ) + (digitsVal fracPart : ℚ) / (10 : ℚ) ^ fracPart.length)

/-- JS `Number(s)` on an arbitrary string, restricted to plain decimal
numerals (sign, exponent and hex forms are outside the model and map to
`NaN`). `Number("") = 0` and whitespace is trimmed, as in JS. -/
def jsNumberFull (s : String) : Option ℚ :=
  let l := (jsTrim s).data
  if l = [] then some 0
  else if l.all (fun c => c.isDigit || c = '.') then jsParseCleaned l
  else none

/-- `Math.min(a, b)` on rationals, written as an executable conditional
(Mathlib's lattice `min` is definitionally opaque to kernel reduction). -/
def jsMin (a b : ℚ) : ℚ :=
  if a ≤ b then a else b

/-- Ascending insertion into a sorted list (models `array.sort((a,b)=>a-b)`;
only the sorted result is ever indexed, so any correct ascending sort is an
adequate model). -/
def insertSorted (x : ℚ) : List ℚ → List ℚ
  | [] => [x]
  | y :: ys => if x ≤ y then x :: y :: ys else y :: insertSorted x ys

/-- Ascending sort, see `insertSorted`. -/
def sortQ : List ℚ → List ℚ
  | [] => []
  | x :: xs => insertSorted x (sortQ xs)

/-! ## The `ProductPreview` data model (`src/src/lib/product-ingest/types.ts`)

`source` is declared mandatory in the TS type, but `mergePreviews` guards it
with `overlay.source || base.source`, so the model keeps it optional to cover
the defensive JS semantics of partially-constructed objects. -/

/-- `ProductPreviewSource`. -/
inductive PSource
  | html
  | diffbot
  | brightdata
deriving DecidableEq

/-- `ProductPreview`. -/
structure ProductPreview where
  url : String
  canonicalUrl : Option String := none
  title : Option String := none
  description : Option String := none
  price : Option ℚ := none
  currency : Option String := none
  image : Option String := none
  images : Option (List String) := none
  availability : Option String := none
  source : Option PSource := none
  confidence : ℚ := 0
  warnings : Option (List String) := none
deriving DecidableEq

/-! ## `mergeAndScore` module (`mergePreviews`, `scorePreview`) -/

/-- `pick(current, incoming)` for string-valued fields: the incoming value
wins exactly when it is defined, non-null and not the empty string. -/
def pickStr (cur inc : Option String) : Option String :=
  match inc with
  | some s => if s = "" then cur else some s
  | none => cur

/-- `pick(current, incoming)` for number-valued fields (a number is never
`''`, so the incoming value wins exactly when it is defined and non-null). -/
def pickNum (cur inc : Option ℚ) : Option ℚ :=
  match inc with
  | some q => some q
  | none => cur

/-- Strip the case-insensitive boilerplate `"Amazon.com:"` head plus
following whitespace (regex `/^Amazon\.com:\s*/i`, replaced by `""`). -/
def dropAmazonHead (l : List Char) : List Char :=
  if listStartsWith "amazon.com:".data (l.map Char.toLower) then
    (l.drop 11).dropWhile Char.isWhitespace
  else l

/-- Strip a case-insensitive trailing `sep + "Amazon.com"` with optional
whitespace around `sep` (regexes `/\s*\|\s*Amazon\.com$/i` and
`/\s*-\s*Amazon\.com$/i`, replaced by `""`). -/
def dropAmazonTail (sep : Char) (l : List Char) : List Char :=
  let r := l.reverse
  if listStartsWith "moc.nozama".data (r.map Char.toLower) then
    match (r.drop 10).dropWhile Char.isWhitespace with
    | c :: rest =>
      if c = sep then ((rest.dropWhile Char.isWhitespace).reverse) else l
    | [] => l
  else l

/-- `cleanTitleText` on a present string: strip the `Amazon.com:` head, the
`| Amazon.com` tail, the `- Amazon.com` tail, then `trim`. -/
def cleanTitleStr (s : String) : String :=
  jsTrim (String.mk (dropAmazonTail '-' (dropAmazonTail '|' (dropAmazonHead s.data))))

/-- `cleanTitleText` (the `?.replace...?.trim()` chain is skipped on
`undefined`). -/
def cleanTitle : Option String → Option String :=
  Option.map cleanTitleStr

/-- `mergePreviews(base, overlay)`. -/
def mergePreviews (base : ProductPreview) (overlay : Option ProductPreview) :
    ProductPreview :=
  match overlay with
  | none =>
    { base with
      title := cleanTitle base.title
      description := cleanTitle base.description }
  | some o =>
    { url := base.url
      canonicalUrl := pickStr base.canonicalUrl o.canonicalUrl
      title := cleanTitle (pickStr base.title o.title)
      description := cleanTitle (pickStr base.description o.description)
      price := pickNum base.price o.price
      currency := pickStr base.currency o.currency
      image := pickStr base.image (jsOrStr o.image (o.images.bind List.head?))
      images :=
        match o.images with
        | some l => if l ≠ [] then some l else base.images
        | none => base.images
      availability := pickStr base.availability o.availability
      source :=
        match o.source with
        | some s => some s
        | none => base.source
      confidence := base.confidence
      warnings := some ((base.warnings.getD []) ++ (o.warnings.getD [])) }

/-- `scorePreview(preview)`.  Note the source computes the confidence sum
(including the 0.1 description credit) and the missing-field warnings
*before* removing a description that duplicates the title. -/
def scorePreview (p : ProductPreview) : ProductPreview :=
  let confidence : ℚ :=
    (if strTruthy p.title then 35 / 100 else 0) +
    (if strTruthy p.image then 25 / 100 else 0) +
    (if p.price.isSome ∧ strTruthy p.currency then 25 / 100 else 0) +
    (if strTruthy p.description then 1 / 10 else 0)
  let confidence := jsMin 1 confidence
  let warnings :=
    (p.warnings.getD []) ++
    (if ¬ strTruthy p.image then ["Missing product image"] else []) ++
    (if p.price.isNone ∨ ¬ strTruthy p.currency then ["Missing price or currency"] else []) ++
    (if ¬ strTruthy p.title then ["Missing title"] else [])
  let p :=
    if strTruthy p.description ∧ strTruthy p.title ∧
        jsTrim (p.description.getD "") = jsTrim (p.title.getD "") then
      { p with description := none }
    else p
  { p with confidence := confidence, warnings := some warnings }

/-- The missing-field warnings one scoring pass appends, in the push order
of the source (image, price-or-currency, title). -/
def missingFieldWarnings (p : ProductPreview) : List String :=
  (if ¬ strTruthy p.image then ["Missing product image"] else []) ++
  (if p.price.isNone ∨ ¬ strTruthy p.currency then ["Missing price or currency"] else []) ++
  (if ¬ strTruthy p.title then ["Missing title"] else [])

/-- `needsBetterData(preview, threshold)` from the route module. -/
def needsBetterData (p : ProductPreview) (threshold : ℚ) : Bool :=
  let missingCritical :=
    ¬ strTruthy p.title ∨ ¬ strTruthy p.image ∨ p.price.isNone ∨ ¬ strTruthy p.currency
  decide (p.confidence < threshold) || missingCritical

/-- `isWeakPreview(preview)` from the route module (same missing-field test
as `needsBetterData`'s `missingCritical`). -/
def isWeakPreview (p : ProductPreview) : Bool :=
  ¬ strTruthy p.title ∨ ¬ strTruthy p.image ∨ p.price.isNone ∨ ¬ strTruthy p.currency

/-- An overlay with none of the data fields set (the required TS fields
`url` and `confidence` still carry arbitrary values, which merging must
ignore). -/
def emptyOverlay (u : String) (c : ℚ) : ProductPreview :=
  { url := u, confidence := c }

/-! ## URL normalizer (`src/src/lib/product-ingest/normalizeUrl.ts`)

`normalizeUrl` is built on the WHATWG `URL` platform class.  The model below
is an executable parser/serializer for the fragment of URL syntax this code
exercises; inputs outside the fragment are rejected (parse failure), never
parsed differently from the platform:

* only `http`/`https` schemes (so the unconditional `url.protocol = 'https:'`
  assignment of the source is always legal — the platform blocks switching a
  non-special scheme to `https`);
* no credentials, no port, no IPv6/IDNA hosts: the host is a nonempty run of
  `[a-z0-9._-]` after ASCII lowercasing;
* path/query/fragment characters that the platform would percent-encode (or
  that `URLSearchParams` would re-encode, e.g. `~` or `%`) are rejected, so
  serialization is the identity on the retained characters exactly as it is
  on the platform for the accepted fragment;
* `.` and `..` path segments (which the platform resolves) are rejected.

Within this fragment the model mirrors the platform behaviour the source
relies on: hosts and schemes are lowercased at parse time, an absent path
serializes as `/`, deleting every query pair removes the `?` while an
originally-empty query keeps it, and query pairs without `=` serialize with
a trailing `=`. -/

/-- One `key=value` query pair (raw characters, no percent-decoding in the
modelled fragment). -/
structure QueryPair where
  key : List Char
  val : List Char
deriving DecidableEq

/-- Parsed URL record (the fields of the platform `URL` object the source
reads or writes). -/
structure UrlRec where
  scheme : List Char
  host : List Char
  path : List Char
  query : Option (List QueryPair)
  frag : Option (List Char)
deriving DecidableEq

/-- Scheme characters after the first (letters, digits, `+`, `-`, `.`). -/
def schemeChar (c : Char) : Bool :=
  c.isAlpha || c.isDigit || c = '+' || c = '-' || c = '.'

/-- A valid scheme: nonempty, starts with a letter. -/
def schemeOk : List Char → Bool
  | [] => false
  | c :: cs => c.isAlpha && cs.all schemeChar

/-- Host characters accepted by the model, after lowercasing. -/
def hostChar (c : Char) : Bool :=
  c.isLower || c.isDigit || c = '.' || c = '-' || c = '_'

/-- Path characters accepted by the model: printable ASCII minus the
structural delimiters and every character in the platform's path
percent-encode set. -/
def pathChar (c : Char) : Bool :=
  33 ≤ c.toNat && c.toNat ≤ 126 &&
    !(c = '?' || c = '#' || c = '"' || c = '<' || c = '>' || c = '`' ||
      c = '{' || c = '}' || c = '\\')

/-- Non-structural query characters accepted by the model: exactly the
characters that `application/x-www-form-urlencoded` serialization leaves
unchanged. -/
def qcChar (c : Char) : Bool :=
  c.isAlpha || c.isDigit || c = '*' || c = '-' || c = '.' || c = '_' || c = '+'

/-- Query characters accepted by the model: the stable characters plus the
structural `&` and `=`. -/
def queryChar (c : Char) : Bool :=
  qcChar c || c = '&' || c = '='

/-- Fragment characters accepted by the model: printable ASCII minus the
fragment percent-encode set. -/
def fragChar (c : Char) : Bool :=
  33 ≤ c.toNat && c.toNat ≤ 126 &&
    !(c = '"' || c = '<' || c = '>' || c = '`')

/-- Split a character list at every occurrence of `c` (keeping empty
segments; the result is always nonempty). -/
def splitOnChar (c : Char) : List Char → List (List Char)
  | [] => [[]]
  | x :: xs =>
    match splitOnChar c xs with
    | [] => [[]]
    | s :: rest => if x = c then [] :: s :: rest else (x :: s) :: rest

/-- Join segments with separator `c` (left inverse of `splitOnChar`). -/
def joinSep (c : Char) : List (List Char) → List Char
  | [] => []
  | [s] => s
  | s :: rest => s ++ c :: joinSep c rest

/-- Parse one query segment at its first `=` (`"k"` parses as `("k", "")`). -/
def parsePair (seg : List Char) : QueryPair :=
  match breakAt '=' seg with
  | (k, some v) => ⟨k, v⟩
  | (k, none) => ⟨k, []⟩

/-- `URLSearchParams` view of a raw query string: split on `&`, drop empty
segments, parse each segment at its first `=`. -/
def parseQuery (l : List Char) : List QueryPair :=
  ((splitOnChar '&' l).filter (· ≠ [])).map parsePair

/-- Serialize one query pair (`URLSearchParams` always emits the `=`). -/
def serializePair (p : QueryPair) : List Char :=
  p.key ++ '=' :: p.val

/-- Serialize a pair list, `&`-separated. -/
def serializeQuery (ps : List QueryPair) : List Char :=
  joinSep '&' (ps.map serializePair)

/-- Split `scheme://rest` at the first `:`, requiring `//` after it. -/
def splitScheme (l : List Char) : Option (List Char × List Char) :=
  match breakAt ':' l with
  | (sch, some ('/' :: '/' :: rest)) => some (sch, rest)
  | _ => none

/-- `.`/`..` path segments (resolved by the platform) are outside the model. -/
def noDotSegs (l : List Char) : Bool :=
  (splitOnChar '/' l).all (fun seg => seg ≠ ['.'] && seg ≠ ['.', '.'])

/-- `new URL(input)` over the modelled fragment. -/
def parseUrl (l : List Char) : Option UrlRec := do
  let (schRaw, rest) ← splitScheme l
  let scheme := schRaw.map Char.toLower
  let (beforeFrag, fragOpt) := breakAt '#' rest
  let (beforeQuery, queryOpt) := breakAt '?' beforeFrag
  let (hostRaw, pathOpt) := breakAt '/' beforeQuery
  let host := hostRaw.map Char.toLower
  let path := match pathOpt with
    | none => ['/']
    | some p => '/' :: p
  let ok :=
    schemeOk schRaw && (scheme = "http".data || scheme = "https".data) &&
    (match fragOpt with | none => true | some f => f.all fragChar) &&
    (match queryOpt with | none => true | some q => q.all queryChar) &&
    (host ≠ [] && host.all hostChar) &&
    (path.all (fun c => c = '/' || pathChar c) && noDotSegs path)
  if ok then
    some { scheme := scheme, host := host, path := path,
           query := queryOpt.map parseQuery, frag := fragOpt }
  else none

/-- `url.toString()` over the modelled fragment. -/
def serializeUrl (r : UrlRec) : List Char :=
  r.scheme ++ ':' :: '/' :: '/' :: r.host ++ r.path ++
    (match r.query with | none => [] | some ps => '?' :: serializeQuery ps) ++
    (match r.frag with | none => [] | some f => '#' :: f)

/-- The fixed tracking-parameter set of the source. -/
def trackingNames : List String :=
  ["utm_source", "utm_medium", "utm_campaign", "utm_term", "utm_content",
   "gclid", "fbclid", "mc_cid", "mc_eid", "igshid", "msclkid"]

/-- A query key is stripped when it is in the fixed set or starts with
`utm_`. -/
def isTrackingKey (k : List Char) : Bool :=
  (trackingNames.map String.data).contains k || listStartsWith "utm_".data k

/-- The tracking-parameter deletion loop.  `searchParams.delete` updates the
URL's query after each call; when the deletions empty the list the platform
sets the query to null (no `?` in the serialization), while a query that was
already empty (no delete call fires) is kept as-is. -/
def stripTracking : Option (List QueryPair) → Option (List QueryPair)
  | none => none
  | some ps =>
    let kept := ps.filter (fun p => ¬ isTrackingKey p.key)
    if kept.length = ps.length then some ps
    else if kept = [] then none
    else some kept

/-- ASIN characters: the regex class `[A-Z0-9]` under the `/i` flag. -/
def isAsinChar (c : Char) : Bool :=
  c.isAlphanum

/-- Try to read a 10-character ASIN token at the head of `cs` (the part of
the path following a `/`), requiring the regex boundary `(?:[/?]|$)`. -/
def asinHere (cs : List Char) : Option (List Char) :=
  let t := cs.take 10
  if t.length = 10 && t.all isAsinChar &&
      (match cs.drop 10 with
       | [] => true
       | c :: _ => c = '/' || c = '?') then
    some t
  else none

/-- First match of `/\/([A-Z0-9]{10})(?:[/?]|$)/i` in the path. -/
def findAsin : List Char → Option (List Char)
  | [] => none
  | c :: cs =>
    if c = '/' then
      match asinHere cs with
      | some a => some a
      | none => findAsin cs
    else findAsin cs

/-- The Amazon canonicalization step: when the hostname contains `amazon.`
and the path holds an ASIN, rewrite the path to `/dp/<ASIN>` (uppercased)
and drop the whole query (`url.search = ''` nulls the query). -/
def amazonStep (r : UrlRec) : UrlRec :=
  if listHasSub "amazon.".data r.host then
    match findAsin r.path with
    | some a =>
      { r with path := "/dp/".data ++ a.map Char.toUpper, query := none }
    | none => r
  else r

/-- A path on which the trailing-slash strip is a no-op: the root path, or
one not ending in `/`.  (Stripping removes a *single* slash, so a path
ending in two slashes still ends in one afterwards.) -/
def noTrailingSlash (p : List Char) : Bool :=
  p = ['/'] || p.getLast? ≠ some '/'

/-- Trailing-slash removal (`pathname !== '/' && pathname.endsWith('/')`). -/
def stripSlash (p : List Char) : List Char :=
  if p ≠ ['/'] ∧ p.getLast? = some '/' then p.dropLast else p

/-- The in-place mutations `normalizeUrl` performs on the parsed URL. -/
def normalizeCore (r : UrlRec) : UrlRec :=
  let r := { r with scheme := "https".data }
  let r := { r with query := stripTracking r.query }
  let r := amazonStep r
  { r with path := stripSlash r.path }

/-- The result record of `normalizeUrl`. -/
structure NormResult where
  normalized : String
  hash : String
  hostname : String
deriving DecidableEq

/-- `normalizeUrl(input)`: parse (retrying with an `https://` head when the
bare input fails to parse), mutate, serialize; `none` is the thrown
`Invalid URL` error.  `sha` is the opaque SHA-256 hex digest primitive. -/
def normalizeUrl (sha : String → String) (input : String) : Option NormResult :=
  match parseUrl input.data <|> parseUrl ("https://".data ++ input.data) with
  | none => none
  | some r0 =>
    let r := normalizeCore r0
    let s := String.mk (serializeUrl r)
    some { normalized := s, hash := sha s,
           hostname := String.mk (r.host.map Char.toLower) }

/-! ## Rate limiter (`checkRateLimit` in the route module)

The Firestore document store is modelled as a total count function from
document keys; the transaction body is sequential (the transactional
read-check-write is atomic, so its sequential semantics is its semantics). -/

/-- The hour bucket string: the template literal concatenates the **unpadded**
decimal renderings of `getUTCFullYear()`, `getUTCMonth() + 1`, `getUTCDate()`
and `getUTCHours()`.  `m` is the 0-based month as returned by
`getUTCMonth()`. -/
def hourBucket (y m d h : Nat) : String :=
  Nat.repr y ++ Nat.repr (m + 1) ++ Nat.repr d ++ Nat.repr h

/-- A UTC instant as the quadruple of getter values
(`getUTCFullYear`, `getUTCMonth` (0-based), `getUTCDate`, `getUTCHours`). -/
abbrev Date4 := Nat × Nat × Nat × Nat

/-- Bucket of an instant. -/
def bucketOf (t : Date4) : String :=
  hourBucket t.1 t.2.1 t.2.2.1 t.2.2.2

/-- The rate-limit document key `` `${userId}_${bucket}` ``. -/
def rlKey (userId : String) (t : Date4) : String :=
  userId ++ "_" ++ bucketOf t

/-- `checkRateLimit(userId)`: read the count for `(userId, hourBucket)`,
deny without mutation at `count >= 30`, otherwise increment and allow.
Returns the decision and the updated store. -/
def checkRateLimit (store : String → Nat) (userId : String) (t : Date4) :
    Bool × (String → Nat) :=
  let key := rlKey userId t
  let count := store key
  if 30 ≤ count then (false, store)
  else (true, fun k => if k = key then count + 1 else store k)

/-- The store after `n` consecutive `checkRateLimit` calls by the same user
in the same hour bucket. -/
def rlIter (userId : String) (t : Date4) (store : String → Nat) : Nat → (String → Nat)
  | 0 => store
  | n + 1 => (checkRateLimit (rlIter userId t store n) userId t).2

/-! ## Cache (`getCachedPreview` in the route module) -/

/-- A stored cache entry (timestamps as integral epoch milliseconds;
`cachePreview` always writes `expiresAt`, so it is modelled as present). -/
structure CacheEntry where
  normalizedUrl : String
  hash : String
  preview : ProductPreview
  createdAt : Int
  expiresAt : Int
deriving DecidableEq

/-- `getCachedPreview(hash)` given the stored entry for that hash and the
current time: absent, expired (`expiresAt.toDate() < new Date()`), and weak
entries are all misses. -/
def getCachedPreview (entry : Option CacheEntry) (now : Int) :
    Option ProductPreview :=
  match entry with
  | none => none
  | some e =>
    if e.expiresAt < now then none
    else if isWeakPreview e.preview then none
    else some e.preview

/-! ## Bright Data dataset adapter (`extractFromBrightData`)

External HTTP calls are supplied by the world record; `Except.error ()`
models a thrown JS exception (the source wraps **none** of these calls in
`try`/`catch`, so a throw propagates to the caller). -/

/-- A JSON field value (numbers, strings, or anything else). -/
inductive JsVal
  | num (q : ℚ)
  | str (s : String)
  | other
deriving DecidableEq

/-- The adapter's `normalizeNum`: finite numbers pass through; strings are
stripped with `/[^0-9.]/g` and fed to `Number`; everything else is
`undefined`. -/
def normalizeNum : Option JsVal → Option ℚ
  | some (.num q) => some q
  | some (.str s) => jsParseCleaned (s.data.filter (fun c => c.isDigit || c = '.'))
  | some .other => none
  | none => none

/-- The adapter's `extractPrice(...vals)`: first collect every value that
`normalizeNum` accepts, in argument order, and return the first one; if that
list is empty, re-collect the numeric values (the same computation), sort
ascending and take the `floor(length/2)` element, or `undefined` when there
are none. -/
def extractPrice (vals : List (Option JsVal)) : Option ℚ :=
  match (vals.map normalizeNum).filter (·.isSome) with
  | x :: _ => x
  | [] =>
    match (vals.map normalizeNum).filterMap id with
    | [] => none
    | nums => (sortQ nums)[nums.length / 2]?

/-- The fields of the first dataset record that the adapter reads. -/
structure BRecord where
  buybox_price_value : Option JsVal := none
  buybox_price : Option JsVal := none
  current_price : Option JsVal := none
  sale_price : Option JsVal := none
  offer_price : Option JsVal := none
  price : Option JsVal := none
  price_value : Option JsVal := none
  price_raw : Option JsVal := none
  price_str : Option JsVal := none
  buybox_price_str : Option JsVal := none
  original_price : Option JsVal := none
  list_price : Option JsVal := none
  list_price_value : Option JsVal := none
  retail_price : Option JsVal := none
  retail_price_value : Option JsVal := none
  was_price : Option JsVal := none
  was_price_value : Option JsVal := none
  current_price_value : Option JsVal := none
  buybox_currency : Option String := none
  price_currency : Option String := none
  currency : Option String := none
  currency_symbol : Option String := none
  price_symbol : Option String := none
  current_price_currency : Option String := none
  list_price_currency : Option String := none
  url : Option String := none
  product_url : Option String := none
  link : Option String := none
  title : Option String := none
  name : Option String := none
  description : Option String := none
  summary : Option String := none
  about : Option String := none
  product_description : Option String := none
  feature_bullets : Option (List String) := none
  bullet_points : Option (List String) := none
  main_image : Option String := none
  image : Option String := none
  image_url : Option String := none
  hero_image : Option String := none
  main_image_highres : Option String := none
  image_highres : Option String := none
  primary_image : Option String := none
  images : Option (List String) := none
  availability : Option String := none
  stock_status : Option String := none
  availability_message : Option String := none
  buybox_availability : Option String := none
deriving DecidableEq

/-- The 18 price-candidate fields in the exact argument order of the
`extractPrice(...)` call of the source. -/
def priceFields (r : BRecord) : List (Option JsVal) :=
  [r.buybox_price_value, r.buybox_price, r.current_price, r.sale_price,
   r.offer_price, r.price, r.price_value, r.price_raw, r.price_str,
   r.buybox_price_str, r.original_price, r.list_price, r.list_price_value,
   r.retail_price, r.retail_price_value, r.was_price, r.was_price_value,
   r.current_price_value]

/-- `extractPrice` applied to a record's candidate fields. -/
def extractPriceR (r : BRecord) : Option ℚ :=
  extractPrice (priceFields r)

/-- Build the `ProductPreview` for the first dataset record (the success
path of `extractFromBrightData`). -/
def brightPreview (url : String) (first : BRecord) (warnings : List String) :
    ProductPreview :=
  { url := url
    canonicalUrl := jsOrStr first.url (jsOrStr first.product_url first.link)
    title := jsOrStr first.title first.name
    description :=
      jsOrStr first.description (jsOrStr first.summary (jsOrStr first.about
        (jsOrStr first.product_description
          (jsOrStr (first.feature_bullets.map (String.intercalate " • "))
            (first.bullet_points.map (String.intercalate " • "))))))
    price := extractPriceR first
    currency :=
      jsOrStr first.buybox_currency (jsOrStr first.price_currency
        (jsOrStr first.currency (jsOrStr first.currency_symbol
          (jsOrStr first.price_symbol (jsOrStr first.current_price_currency
            first.list_price_currency)))))
    image :=
      jsOrStr first.main_image (jsOrStr first.image
        (jsOrStr (first.images.bind List.head?) (jsOrStr first.image_url
          (jsOrStr first.hero_image (jsOrStr first.main_image_highres
            (jsOrStr first.image_highres first.primary_image))))))
    images := first.images
    availability :=
      jsOrStr first.availability (jsOrStr first.stock_status
        (jsOrStr first.availability_message first.buybox_availability))
    source := some .brightdata
    confidence := 0
    warnings := some warnings }

/-- The trigger response JSON. -/
structure TriggerJson where
  snapshot_id : Option String := none
  id : Option String := none
deriving DecidableEq

/-- The trigger HTTP response (`json` may itself throw). -/
structure TriggerRes where
  ok : Bool
  status : Nat
  json : Except Unit TriggerJson

/-- One `progress` poll response. -/
structure BStatus where
  status : String
deriving DecidableEq

/-- One poll HTTP response. -/
structure PollRes where
  ok : Bool
  json : Except Unit BStatus

/-- The snapshot download response. -/
structure DataRes where
  ok : Bool
  status : Nat
  json : Except Unit (List BRecord)

/-- The external circumstances of one `extractFromBrightData` call:
environment configuration plus the outcome of each HTTP interaction.
`polls` lists the poll outcomes that occur before the 45-second ceiling
(each iteration sleeps 3 s, so the list is finite). -/
structure BrightWorld where
  apiKey : Option String := none
  amazonDatasetId : Option String := none
  walmartDatasetId : Option String := none
  triggerFetch : Except Unit TriggerRes := .error ()
  polls : List (Except Unit PollRes) := []
  dataFetch : Except Unit DataRes := .error ()

/-- `getDatasetId(hostname)` (`process.env... || null`; an empty environment
value is falsy). -/
def getDatasetId (bw : BrightWorld) (hostname : String) : Option String :=
  if strContains hostname "amazon." then
    if strTruthy bw.amazonDatasetId then bw.amazonDatasetId else none
  else if strContains hostname "walmart." then
    if strTruthy bw.walmartDatasetId then bw.walmartDatasetId else none
  else none

/-- The source's poll loop: each iteration fetches progress (a thrown fetch
or `json()` error propagates — no `try`/`catch`), skips non-ok responses,
records the parsed progress, and stops early on `completed`; the ceiling is
reaching the end of the outcome list. Returns the last recorded progress. -/
def pollLoop (progress : Option BStatus) : List (Except Unit PollRes) →
    Except Unit (Option BStatus)
  | [] => .ok progress
  | r :: rs =>
    match r with
    | .error e => .error e
    | .ok pr =>
      if ¬ pr.ok then pollLoop progress rs
      else
        match pr.json with
        | .error e => .error e
        | .ok st =>
          if st.status = "completed" then .ok (some st)
          else pollLoop (some st) rs

/-- The loop-exit test `!progress || progress.status !== 'completed'`
(negated). -/
def progressCompleted : Option BStatus → Bool
  | some st => st.status = "completed"
  | none => false

/-- `extractFromBrightData(url, hostname)`.  The result is `Except`-valued:
`Except.error ()` is an uncaught JS exception escaping the function (an
`await` on a throwing call propagates, matching the `.error` arms below). -/
def extractFromBrightData (bw : BrightWorld) (url hostname : String) :
    Except Unit (Option ProductPreview × List String) :=
  if ¬ (strTruthy bw.apiKey = true ∧ strTruthy (getDatasetId bw hostname) = true) then
    .ok (none, ["Bright Data not configured for this host"])
  else
    match bw.triggerFetch with
    | .error e => .error e
    | .ok triggerRes =>
      if ¬ triggerRes.ok then
        .ok (none, ["Bright Data trigger failed (" ++ Nat.repr triggerRes.status ++ ")"])
      else
        match triggerRes.json with
        | .error e => .error e
        | .ok triggerJson =>
          if ¬ strTruthy (jsOrStr triggerJson.snapshot_id triggerJson.id) then
            .ok (none, ["Bright Data snapshot id missing"])
          else
            match pollLoop none bw.polls with
            | .error e => .error e
            | .ok progress =>
              if ¬ progressCompleted progress then
                .ok (none, ["Bright Data did not complete in time"])
              else
                match bw.dataFetch with
                | .error e => .error e
                | .ok dataRes =>
                  if ¬ dataRes.ok then
                    .ok (none,
                      ["Bright Data download failed (" ++ Nat.repr dataRes.status ++ ")"])
                  else
                    match dataRes.json with
                    | .error e => .error e
                    | .ok records =>
                      match records with
                      | [] => .ok (none, ["Bright Data returned empty dataset"])
                      | first :: _ => .ok (some (brightPreview url first []), [])

/-- No HTTP interaction of the Bright Data stage throws (every fetch returns
a response and every `json()` call parses). -/
def bwNoThrow (bw : BrightWorld) : Bool :=
  exOk bw.triggerFetch &&
  (match bw.triggerFetch with | .ok t => exOk t.json | .error _ => true) &&
  bw.polls.all (fun p =>
    match p with
    | .ok pr => exOk pr.json
    | .error _ => false) &&
  exOk bw.dataFetch &&
  (match bw.dataFetch with | .ok d => exOk d.json | .error _ => true)

/-! ## Diffbot adapter (`extractFromDiffbot`)

The whole body after the token check sits inside `try`/`catch`, so the
embedding is a total function: thrown fetch/JSON errors land in the `catch`
branch and produce a `null` preview plus a warning. -/

/-- The fields of the first Diffbot object the adapter reads (`images` is a
list of image objects; only their `url` is used, so each element is its
optional `url`). -/
structure DiffObj where
  pageUrl : Option String := none
  resolvedPageUrl : Option String := none
  title : Option String := none
  text : Option String := none
  offerPrice : Option JsVal := none
  offerCurrency : Option String := none
  images : Option (List (Option String)) := none
  availability : Option String := none
deriving DecidableEq

/-- The external circumstances of one `extractFromDiffbot` call.
`objects = none` models `data.objects` absent or not an array;
a `none` element models a falsy array entry (replaced by `{}`). -/
structure DiffbotWorld where
  token : Option String := none
  fetchThrows : Bool := false
  resOk : Bool := true
  resStatus : Nat := 200
  jsonThrows : Bool := false
  errMsg : String := ""
  objects : Option (List (Option DiffObj)) := none

/-- `typeof obj.offerPrice === 'number' ? obj.offerPrice :
Number(obj.offerPrice) || undefined`. -/
def diffbotPrice : Option JsVal → Option ℚ
  | some (.num q) => some q
  | some (.str s) =>
    match jsNumberFull s with
    | some q => if q = 0 then none else some q
    | none => none
  | _ => none

/-- `extractFromDiffbot(url)`: total — every failure path returns a `null`
preview and a warning. -/
def extractFromDiffbot (dw : DiffbotWorld) (url : String) :
    Option ProductPreview × List String :=
  if ¬ strTruthy dw.token then
    (none, ["Diffbot token not configured"])
  else if dw.fetchThrows then
    (none, ["Diffbot fetch error: " ++ dw.errMsg])
  else if ¬ dw.resOk then
    (none, ["Diffbot request failed (" ++ Nat.repr dw.resStatus ++ ")"])
  else if dw.jsonThrows then
    (none, ["Diffbot fetch error: " ++ dw.errMsg])
  else
    match dw.objects with
    | none => (none, ["Diffbot returned no objects"])
    | some [] => (none, ["Diffbot returned no objects"])
    | some (o :: _) =>
      let obj := o.getD {}
      (some
        { url := url
          canonicalUrl := jsOrStr obj.pageUrl obj.resolvedPageUrl
          title := obj.title
          description := obj.text
          price := diffbotPrice obj.offerPrice
          currency := obj.offerCurrency
          image := (obj.images.bind List.head?).bind id
          images := some (((obj.images.getD []).filterMap id).filter (· ≠ ""))
          availability := obj.availability
          source := some .diffbot
          confidence := 0
          warnings := some [] }, [])

/-! ## The orchestrator (`POST` in the route module)

The response value; caching side effects of the success path are not part of
any claim and are not modelled. -/

/-- An HTTP response: either the JSON-serialized preview (200) or
`buildError(status, message)`. -/
inductive Resp
  | success (p : ProductPreview)
  | error (status : Nat) (msg : String)
deriving DecidableEq

/-- Outcome of `verifyAuth`: a uid, one of the two thrown token errors
(both answered 401), or any other failure (answered 500). -/
inductive AuthOutcome
  | ok (uid : String)
  | missingToken
  | invalidToken
  | otherFailure

/-- Outcome of `req.json()` and the `body?.url` read: a thrown JSON parse
error, an absent / non-string `url`, or a string `url`. -/
inductive BodyOutcome
  | badJson
  | missingUrl
  | urlStr (s : String)

/-- Everything external one `POST` invocation observes. -/
structure World where
  auth : AuthOutcome
  body : BodyOutcome
  date : Date4
  nowMs : Int
  rl : String → Nat
  cache : String → Option CacheEntry
  s1 : ProductPreview
  diffbot : DiffbotWorld
  bright : BrightWorld

/-- The `hostname.includes('amazon.') || hostname.includes('walmart.')`
gate for Stage 3. -/
def restrictedHost (hostname : String) : Bool :=
  strContains hostname "amazon." || strContains hostname "walmart."

/-- The FINALIZE step: error 500 when none of title/image/price is present
(JS truthiness for the strings, `!== undefined` for the price), else the
200 response. -/
def finalizeResp (p : ProductPreview) : Resp :=
  if ¬ strTruthy p.title ∧ ¬ strTruthy p.image ∧ p.price = none then
    .error 500 "Unable to retrieve product data"
  else .success p

/-- Stage 3 of `POST`: call `extractFromBrightData` (whose thrown exceptions
propagate), merge, rescore, finalize. -/
def runStage3 (bw : BrightWorld) (url hostname : String) (preview : ProductPreview) :
    Except Unit Resp :=
  match extractFromBrightData bw url hostname with
  | .error e => .error e
  | .ok (bp, _) => .ok (finalizeResp (scorePreview (mergePreviews preview bp)))

/-- `POST(req)`.  `sha` is the SHA-256 primitive handed to `normalizeUrl`. -/
def POST (sha : String → String) (w : World) : Except Unit Resp :=
  match w.auth with
  | .missingToken => .ok (.error 401 "Unauthorized")
  | .invalidToken => .ok (.error 401 "Unauthorized")
  | .otherFailure => .ok (.error 500 "Auth verification failed")
  | .ok uid =>
    match w.body with
    | .badJson => .ok (.error 400 "Invalid JSON")
    | .missingUrl => .ok (.error 400 "Missing url")
    | .urlStr u =>
      if u = "" then .ok (.error 400 "Missing url")
      else
        match normalizeUrl sha u with
        | none => .ok (.error 400 "Invalid URL")
        | some norm =>
          if ¬ (checkRateLimit w.rl uid w.date).1 then
            .ok (.error 429 "Rate limit exceeded. Please try again later.")
          else
            match getCachedPreview (w.cache norm.hash) w.nowMs with
            | some cached => .ok (.success cached)
            | none =>
              let preview := scorePreview w.s1
              let preview :=
                if needsBetterData preview (3 / 4) then
                  scorePreview (mergePreviews preview
                    (extractFromDiffbot w.diffbot norm.normalized).1)
                else preview
              if restrictedHost norm.hostname then
                if needsBetterData preview (19 / 20) then
                  runStage3 w.bright norm.normalized norm.hostname preview
                else .ok (finalizeResp preview)
              else .ok (finalizeResp preview)

/-- Occurrences of warning `m` in a successful response. -/
def warnCount (r : Except Unit Resp) (m : String) : Nat :=
  match r with
  | .ok (.success p) => (p.warnings.getD []).count m
  | _ => 0

/-! ## Concrete scenario inputs used by counterexamples and witnesses -/

/-- A preview whose description equals its title verbatim. -/
def dupDescPreview : ProductPreview :=
  { url := "https://example.com/p", title := some "Wireless Mouse",
    description := some "Wireless Mouse", source := some .html,
    confidence := 0, warnings := some [] }

/-- A Bright Data record whose only numeric candidates are a "was" price of
100 and a `current_price_value` of 50. -/
def wasVsCurrentRecord : BRecord :=
  { was_price := some (.num 100), current_price_value := some (.num 50) }

/-- A base preview with no `warnings` array. -/
def noWarnBase : ProductPreview :=
  { url := "https://example.com/base", title := some "Base title",
    price := some 5, source := some .html, confidence := 0 }

/-- A fresh, unexpired cache entry whose stored preview lacks `currency`. -/
def noCurrencyEntry : CacheEntry :=
  { normalizedUrl := "https://example.com/p", hash := "h"
    preview :=
      { url := "https://example.com/p", title := some "X",
        image := some "https://i/1.png", price := some 29,
        source := some .html, confidence := 0, warnings := some [] }
    createdAt := 0, expiresAt := 1000000 }

/-- A sparse Stage-1 result: only a title. -/
def sparseS1 (u : String) : ProductPreview :=
  { url := u, title := some "T", source := some .html, confidence := 0,
    warnings := some [] }

/-- A request world that passes auth, validation, rate limiting and the
cache lookup, targets an Amazon URL, needs Stage 3, and whose Bright Data
trigger fetch throws (a network error). -/
def brightThrowWorld : World :=
  { auth := .ok "user-1"
    body := .urlStr "amazon.com/dp/B000000001"
    date := (2025, 0, 1, 0)
    nowMs := 0
    rl := fun _ => 0
    cache := fun _ => none
    s1 := sparseS1 "https://amazon.com/dp/B000000001"
    diffbot := {}
    bright :=
      { apiKey := some "key", amazonDatasetId := some "ds-amazon",
        triggerFetch := .error () } }

/-- A request world (unrestricted host, Diffbot unconfigured) whose Stage-1
preview has a title only: scoring runs once after Stage 1 and once after the
Stage-2 merge, so each missing-field warning is appended twice. -/
def doubleWarnWorld : World :=
  { auth := .ok "user-2"
    body := .urlStr "https://example.com/a"
    date := (2025, 0, 1, 0)
    nowMs := 0
    rl := fun _ => 0
    cache := fun _ => none
    s1 := sparseS1 "https://example.com/a"
    diffbot := {}
    bright := {} }

/-- A world that is answered before any stage runs (used to witness the
no-throw totality statement). -/
def unauthWorld : World :=
  { auth := .missingToken
    body := .badJson
    date := (2025, 0, 1, 0)
    nowMs := 0
    rl := fun _ => 0
    cache := fun _ => none
    s1 := { url := "" }
    diffbot := {}
    bright :=
      { apiKey := some "key", amazonDatasetId := some "ds"
        triggerFetch := .ok { ok := true, status := 200, json := .ok { snapshot_id := some "s" } }
        polls := [.ok { ok := true, json := .ok { status := "completed" } }]
        dataFetch := .ok { ok := true, status := 200, json := .ok [{}] } } }

/-- A rate-limited request world: same gates as `brightThrowWorld` but the
user's counter for the current hour bucket is already at the limit. -/
def rateLimitedWorld : World :=
  { auth := .ok "user-3"
    body := .urlStr "https://example.com/a"
    date := (2025, 0, 1, 0)
    nowMs := 0
    rl := fun _ => 30
    cache := fun _ => none
    s1 := { url := "" }
    diffbot := {}
    bright := {} }

/-! ## Well-formedness predicates used by the URL roundtrip development -/

/-- A parsed query pair: stable characters in the key, stable characters or
`=` in the value (so keys contain no `&`/`=`, values no `&`). -/
def CanonPair (p : QueryPair) : Prop :=
  p.key.all qcChar = true ∧ p.val.all (fun c => qcChar c || c = '=') = true

/-- Well-formedness of an optional query. -/
def CanonQueryOpt : Option (List QueryPair) → Prop
  | none => True
  | some ps => ∀ p ∈ ps, CanonPair p

/-- No tracking key survives in an optional query. -/
def NoTracking : Option (List QueryPair) → Prop
  | none => True
  | some ps => ∀ p ∈ ps, isTrackingKey p.key = false

/-- The invariants `parseUrl` guarantees for its result (everything needed
to re-parse a serialization, except the scheme which normalization fixes to
`https`). -/
structure RecOk (r : UrlRec) : Prop where
  host_ne : r.host ≠ []
  host_ok : r.host.all hostChar = true
  path_head : ∃ t, r.path = '/' :: t
  path_ok : r.path.all (fun c => c = '/' || pathChar c) = true
  path_dots : noDotSegs r.path = true
  query_ok : CanonQueryOpt r.query
  frag_ok : ∀ f, r.frag = some f → f.all fragChar = true

/-! # Theorems -/

/-! ## Helper lemmas -/

theorem checkRateLimit_denied (store : String → Nat) (uid : String) (t : Date4)
    (h : 30 ≤ store (rlKey uid t)) :
    checkRateLimit store uid t = (false, store) := by
  simp [checkRateLimit, h]

theorem checkRateLimit_allowed (store : String → Nat) (uid : String) (t : Date4)
    (h : store (rlKey uid t) < 30) :
    (checkRateLimit store uid t).1 = true ∧
    (checkRateLimit store uid t).2 (rlKey uid t) = store (rlKey uid t) + 1 ∧
    ∀ k, k ≠ rlKey uid t → (checkRateLimit store uid t).2 k = store k := by
  have h' : ¬ 30 ≤ store (rlKey uid t) := by omega
  refine ⟨by simp [checkRateLimit, h'], by simp [checkRateLimit, h'], ?_⟩
  intro k hk
  simp [checkRateLimit, h', hk]

theorem rlIter_count (uid : String) (t : Date4) (store : String → Nat)
    (h0 : store (rlKey uid t) = 0) :
    ∀ n, rlIter uid t store n (rlKey uid t) = min n 30 := by
  intro n
  induction n with
  | zero => simpa [rlIter] using h0
  | succ n ih =>
    rw [rlIter]
    by_cases h : 30 ≤ rlIter uid t store n (rlKey uid t)
    · rw [checkRateLimit_denied _ _ _ h]
      show rlIter uid t store n (rlKey uid t) = min (n + 1) 30
      rw [ih]
      omega
    · have := checkRateLimit_allowed (rlIter uid t store n) uid t (by omega)
      rw [this.2.1, ih]
      omega

theorem string_append_right_cancel {a b c : String} (h : a ++ b = a ++ c) : b = c := by
  have h2 : (a ++ b).data = (a ++ c).data := congrArg String.data h
  simp only [String.data_append] at h2
  exact String.ext (List.append_cancel_left h2)

theorem small_repr_ne {h₁ h₂ : Nat} (hb₁ : h₁ < 24) (hb₂ : h₂ < 24) (hne : h₁ ≠ h₂) :
    Nat.repr h₁ ≠ Nat.repr h₂ := by
  have : ∀ a < 24, ∀ b < 24, a ≠ b → Nat.repr a ≠ Nat.repr b := by decide
  exact this h₁ hb₁ h₂ hb₂ hne

theorem filter_isSome_nil {l : List (Option ℚ)} (h : l.filter (·.isSome) = []) :
    l.filterMap id = [] := by
  induction l with
  | nil => rfl
  | cons a l ih =>
    cases a with
    | none => simpa using ih (by simpa using h)
    | some v => simp at h

theorem filter_isSome_head {l : List (Option ℚ)} {x : Option ℚ} {xs : List (Option ℚ)}
    (h : l.filter (·.isSome) = x :: xs) :
    (l.filterMap id).head? = x := by
  induction l with
  | nil => simp at h
  | cons a l ih =>
    cases a with
    | none =>
      simpa using ih (by simpa using h)
    | some v =>
      have hf : (some v :: l).filter (·.isSome) = some v :: l.filter (·.isSome) := by
        simp
      rw [hf] at h
      injection h with h1 h2

theorem needsBetterData_of_no_image (p : ProductPreview) (th : ℚ)
    (h : strTruthy p.image = false) : needsBetterData p th = true := by
  simp [needsBetterData, h]

theorem restrictedHost_example : restrictedHost "example.com" = false := by decide

/-! ## C2 — rate limiter -/

/-- **C2.** For every user and every fixed hour bucket the limiter allows
exactly the first 30 requests and denies every later one: with the stored
count at `>= 30` the decision is `false` and the store is returned
unchanged; below 30 the decision is `true`, that key's count is incremented
and no other key moves; starting from a fresh bucket the `n`-th request is
allowed iff `n < 30`; a denied request is answered with the 429
rate-limited response by `POST`; and a request whose (different) hour bucket
has count 0 is allowed. -/
theorem c2_rate_limit_exact :
    (∀ (store : String → Nat) (uid : String) (t : Date4),
      30 ≤ store (rlKey uid t) → checkRateLimit store uid t = (false, store)) ∧
    (∀ (store : String → Nat) (uid : String) (t : Date4),
      store (rlKey uid t) < 30 →
        (checkRateLimit store uid t).1 = true ∧
        (checkRateLimit store uid t).2 (rlKey uid t) = store (rlKey uid t) + 1 ∧
        ∀ k, k ≠ rlKey uid t → (checkRateLimit store uid t).2 k = store k) ∧
    (∀ (store : String → Nat) (uid : String) (t : Date4),
      store (rlKey uid t) = 0 →
        ∀ n, (checkRateLimit (rlIter uid t store n) uid t).1 = decide (n < 30)) ∧
    (∀ (sha : String → String) (w : World) (uid u : String) (n : NormResult),
      w.auth = .ok uid → w.body = .urlStr u → u ≠ "" →
      normalizeUrl sha u = some n → 30 ≤ w.rl (rlKey uid w.date) →
      POST sha w = .ok (.error 429 "Rate limit exceeded. Please try again later.")) ∧
    (∀ (store : String → Nat) (uid : String) (t : Date4),
      store (rlKey uid t) = 0 → (checkRateLimit store uid t).1 = true) := by
  refine ⟨checkRateLimit_denied, checkRateLimit_allowed, ?_, ?_, ?_⟩
  · intro store uid t h0 n
    by_cases h : n < 30
    · have hlt : rlIter uid t store n (rlKey uid t) < 30 := by
        rw [rlIter_count uid t store h0]; omega
      simp [(checkRateLimit_allowed _ _ _ hlt).1, h]
    · have hge : 30 ≤ rlIter uid t store n (rlKey uid t) := by
        rw [rlIter_count uid t store h0]; omega
      simp [checkRateLimit_denied _ _ _ hge, h]
  · intro sha w uid u n hauth hbody hu hnorm hcount
    have hdeny := checkRateLimit_denied w.rl uid w.date hcount
    simp [POST, hauth, hbody, hu, hnorm, hdeny]
  · intro store uid t h0
    exact (checkRateLimit_allowed store uid t (by omega)).1

/-- Witness for C2 at concrete inputs: a store at the limit is denied and
left unchanged, a fresh store is allowed, and the concrete rate-limited
request world is answered 429. -/
theorem c2_rate_limit_exact_witness :
    checkRateLimit (fun _ => 30) "u" (2025, 0, 1, 0) = (false, fun _ => 30) ∧
    (checkRateLimit (fun _ => 0) "u" (2025, 0, 1, 0)).1 = true ∧
    POST (fun s => s) rateLimitedWorld =
      .ok (.error 429 "Rate limit exceeded. Please try again later.") := by
  refine ⟨?_, ?_, ?_⟩
  · exact c2_rate_limit_exact.1 (fun _ => 30) "u" (2025, 0, 1, 0) (by decide)
  · exact (c2_rate_limit_exact.2.1 (fun _ => 0) "u" (2025, 0, 1, 0) (by decide)).1
  · exact c2_rate_limit_exact.2.2.2.1 (fun s => s) rateLimitedWorld "user-3"
      "https://example.com/a"
      { normalized := "https://example.com/a", hash := "https://example.com/a",
        hostname := "example.com" }
      rfl rfl (by decide) (by decide) (by decide)

/-! ## C3 — hour bucket identification -/

/-- **C3 counterexample.** Two instants in distinct UTC
(year, month, day, hour) tuples — 2025-11-02T03 and 2025-01-12T03, given as
`getUTC*` getter values with 0-based months — produce the *same* bucket
string `"20251123"`, because the components are concatenated without
padding. -/
theorem c3_bucket_collision :
    bucketOf (2025, 10, 2, 3) = bucketOf (2025, 0, 12, 3) ∧
    ((2025, 10, 2, 3) : Date4) ≠ (2025, 0, 12, 3) := by
  constructor
  · decide
  · decide

/-- **C3 (amended).** Within one UTC day the bucket does identify the clock
hour: for any two valid hours (`< 24`, the range of `getUTCHours`) of the
same year/month/day, distinct hours give distinct bucket strings.  Across
days the identification fails (see the counterexample). -/
theorem c3_bucket_same_day (y m d h₁ h₂ : Nat) (hb₁ : h₁ < 24) (hb₂ : h₂ < 24)
    (hne : h₁ ≠ h₂) : hourBucket y m d h₁ ≠ hourBucket y m d h₂ := by
  intro h
  exact small_repr_ne hb₁ hb₂ hne
    (string_append_right_cancel (a := Nat.repr y ++ Nat.repr (m + 1) ++ Nat.repr d)
      (by simpa [hourBucket, String.append_assoc] using h))

/-- Witness for the amended C3: hours 3 and 4 of 2025-01-01 land in distinct
buckets. -/
theorem c3_bucket_same_day_witness :
    hourBucket 2025 0 1 3 ≠ hourBucket 2025 0 1 4 :=
  c3_bucket_same_day 2025 0 1 3 4 (by omega) (by omega) (by omega)

/-! ## C4 — duplicate description handling in `scorePreview` -/

theorem jsMin_one {x : ℚ} (h : x < 1) : jsMin 1 x = x := by
  rw [jsMin, if_neg (not_le.mpr h)]

theorem scorePreview_confidence (p : ProductPreview) :
    (scorePreview p).confidence =
      jsMin 1 ((if strTruthy p.title then 35 / 100 else 0) +
        (if strTruthy p.image then 25 / 100 else 0) +
        (if p.price.isSome ∧ strTruthy p.currency then 25 / 100 else 0) +
        (if strTruthy p.description then 1 / 10 else 0)) := rfl

/-- **C4 counterexample.** For the preview whose description equals its
title verbatim ("Wireless Mouse"), `scorePreview` does drop the description,
but the result does **not** equal `scorePreview` of the same preview with no
description: the dropped duplicate still contributed its 0.1 confidence
weight (0.45 vs 0.35 here). -/
theorem c4_duplicate_description_counterexample :
    (scorePreview dupDescPreview).description = none ∧
    scorePreview dupDescPreview ≠
      scorePreview { dupDescPreview with description := none } ∧
    (scorePreview dupDescPreview).confidence = 45 / 100 ∧
    (scorePreview { dupDescPreview with description := none }).confidence = 35 / 100 := by
  have h1 : strTruthy dupDescPreview.title = true := by decide
  have h2 : strTruthy dupDescPreview.description = true := by decide
  have h3 : strTruthy dupDescPreview.image = false := by decide
  have h4 : dupDescPreview.price.isSome = false := by decide
  have hL : (scorePreview dupDescPreview).confidence = 45 / 100 := by
    rw [scorePreview_confidence, h1, h2, h3, h4]
    rw [jsMin_one (by norm_num)]
    norm_num
  have hR : (scorePreview { dupDescPreview with description := none }).confidence
      = 35 / 100 := by
    rw [scorePreview_confidence]
    have e1 : ({ dupDescPreview with description := none } : ProductPreview).title
        = dupDescPreview.title := rfl
    rw [e1, h1]
    have e2 : strTruthy ({ dupDescPreview with description := none } :
        ProductPreview).description = false := by decide
    have e3 : strTruthy ({ dupDescPreview with description := none } :
        ProductPreview).image = false := by decide
    have e4 : ({ dupDescPreview with description := none } :
        ProductPreview).price.isSome = false := by decide
    rw [e2, e3, e4]
    rw [jsMin_one (by norm_num)]
    norm_num
  refine ⟨by decide, ?_, hL, hR⟩
  intro h
  have := congrArg ProductPreview.confidence h
  rw [hL, hR] at this
  norm_num at this

/-- **C4 (amended).** For every preview whose (nonempty) description equals
its title verbatim, `scorePreview` drops the description, and the result
equals `scorePreview` of the description-free preview in every field
*except* `confidence`, which is exactly `1/10` higher — the duplicate
description still counts toward the confidence sum because the source
computes the sum before removing the duplicate. -/
theorem c4_duplicate_description_amended (p : ProductPreview) (s : String)
    (ht : p.title = some s) (hd : p.description = some s) (hs : s ≠ "") :
    scorePreview p =
      { scorePreview { p with description := none } with
        confidence := (scorePreview { p with description := none }).confidence + 1 / 10 } := by
  have htt : strTruthy p.title = true := by simp [strTruthy, ht, hs]
  have hdt : strTruthy p.description = true := by simp [strTruthy, hd, hs]
  have hA : (if strTruthy p.description = true ∧ strTruthy p.title = true ∧
      jsTrim (p.description.getD "") = jsTrim (p.title.getD "") then
      ({ p with description := none } : ProductPreview) else p) =
      { p with description := none } :=
    if_pos ⟨hdt, htt, by rw [hd, ht]⟩
  have hA' : (if strTruthy ({ p with description := none } : ProductPreview).description
        = true ∧
      strTruthy ({ p with description := none } : ProductPreview).title = true ∧
      jsTrim (({ p with description := none } : ProductPreview).description.getD "") =
        jsTrim (({ p with description := none } : ProductPreview).title.getD "") then
      ({ ({ p with description := none } : ProductPreview) with description := none } :
        ProductPreview)
      else { p with description := none }) = { p with description := none } :=
    if_neg (fun h => by simpa [strTruthy] using h.1)
  unfold scorePreview
  rw [hA, hA']
  simp only [htt, hdt, eq_self_iff_true, if_true]
  have hfalse : strTruthy none = false := rfl
  simp only [hfalse, Bool.false_eq_true, if_false, not_true, add_zero]
  congr 1
  rw [jsMin_one (by split_ifs <;> norm_num), jsMin_one (by split_ifs <;> norm_num)]

/-- Witness for the amended C4 at the concrete duplicate-description
preview. -/
theorem c4_duplicate_description_amended_witness :
    scorePreview dupDescPreview =
      { scorePreview { dupDescPreview with description := none } with
        confidence :=
          (scorePreview { dupDescPreview with description := none }).confidence + 1 / 10 } :=
  c4_duplicate_description_amended dupDescPreview "Wireless Mouse" rfl rfl (by decide)

/-! ## C5 — dataset-adapter price extraction -/

theorem extractPrice_eq_first (vals : List (Option JsVal)) :
    extractPrice vals = ((vals.map normalizeNum).filterMap id).head? := by
  unfold extractPrice
  cases hfil : (vals.map normalizeNum).filter (·.isSome) with
  | nil =>
    rw [filter_isSome_nil hfil]
    rfl
  | cons x xs =>
    exact (filter_isSome_head hfil).symm

/-- **C5 counterexample.** In the record whose only numeric candidates are
`was_price = 100` and `current_price_value = 50`, the adapter extracts 100:
`current_price_value` is in fact the *last* field tried, after every
MSRP/list/retail/"was" field, so the claimed ordering (current/sale/offer
before "was"/list) would demand 50 and fails here. -/
theorem c5_price_priority_counterexample :
    extractPriceR wasVsCurrentRecord = some 100 ∧
    extractPriceR wasVsCurrentRecord ≠ some 50 := by
  refine ⟨by decide, by decide⟩

/-- **C5 (amended).** The candidate fields are tried in the fixed source
order (`buybox_price_value`, …, `was_price_value`, `current_price_value` —
buy-box/sale/offer fields first, MSRP/list/"was" fields later, except that
`current_price_value` comes last), and the extracted price is always the
*first* numeric candidate in that order (string candidates normalized by
stripping non-`[0-9.]` characters).  Consequently the median fallback of
the source is unreachable: its guard requires the priority pass to find no
numeric value, but the priority pass already covers every candidate. -/
theorem c5_price_extraction_amended :
    (∀ vals, extractPrice vals = ((vals.map normalizeNum).filterMap id).head?) ∧
    (∀ r : BRecord,
      extractPriceR r = (((priceFields r).map normalizeNum).filterMap id).head?) := by
  refine ⟨extractPrice_eq_first, fun r => extractPrice_eq_first (priceFields r)⟩

/-! ## C6 — merge never erases, url authoritative -/

theorem pickStr_truthy {cur inc : Option String} (h : strTruthy inc = true) :
    pickStr cur inc = inc := by
  cases inc with
  | none => simp [strTruthy] at h
  | some s =>
    have : s ≠ "" := by simpa [strTruthy] using h
    simp [pickStr, this]

theorem pickStr_falsy {cur inc : Option String} (h : strTruthy inc = false) :
    pickStr cur inc = cur := by
  cases inc with
  | none => rfl
  | some s =>
    have : s = "" := by simpa [strTruthy] using h
    simp [pickStr, this]

/-- **C6 counterexample.** Merging a base that has no `warnings` array with
an overlay that has no fields set does *not* return the base (even after
title/description cleanup): the merge materializes `warnings` as the
explicit empty array (the concatenation of the two absent lists), while the
base's `warnings` stays absent. -/
theorem c6_empty_overlay_counterexample :
    mergePreviews noWarnBase (some (emptyOverlay "https://overlay.example" 0)) ≠
      { noWarnBase with
        title := cleanTitle noWarnBase.title
        description := cleanTitle noWarnBase.description } ∧
    (mergePreviews noWarnBase (some (emptyOverlay "https://overlay.example" 0))).warnings
      = some [] ∧
    noWarnBase.warnings = none := by
  refine ⟨by decide, by decide, rfl⟩

/-- **C6 (amended).** `mergePreviews` never erases data the overlay does not
provide: merging with a null overlay returns the base unchanged except for
title/description cleanup; merging with an overlay with no fields set
returns the base unchanged except for the cleanup *and* the `warnings`
field, which is materialized as the (possibly empty) concatenation of both
warning lists; the merged `url` is always the base's; for every
string-valued field the overlay wins exactly when its value is defined,
non-null and nonempty (the `pick` rule), the price wins when defined, the
image list wins when nonempty, the source tag when present, and warnings
concatenate. -/
theorem c6_merge_amended :
    (∀ b, mergePreviews b none =
      { b with title := cleanTitle b.title, description := cleanTitle b.description }) ∧
    (∀ b u c, mergePreviews b (some (emptyOverlay u c)) =
      { b with title := cleanTitle b.title, description := cleanTitle b.description,
               warnings := some (b.warnings.getD []) }) ∧
    (∀ b o, (mergePreviews b (some o)).url = b.url) ∧
    (∀ b o, strTruthy o.canonicalUrl = true →
      (mergePreviews b (some o)).canonicalUrl = o.canonicalUrl) ∧
    (∀ b o, strTruthy o.canonicalUrl = false →
      (mergePreviews b (some o)).canonicalUrl = b.canonicalUrl) ∧
    (∀ b o, strTruthy o.title = true →
      (mergePreviews b (some o)).title = cleanTitle o.title) ∧
    (∀ b o, strTruthy o.title = false →
      (mergePreviews b (some o)).title = cleanTitle b.title) ∧
    (∀ b o, strTruthy o.description = true →
      (mergePreviews b (some o)).description = cleanTitle o.description) ∧
    (∀ b o, strTruthy o.description = false →
      (mergePreviews b (some o)).description = cleanTitle b.description) ∧
    (∀ b o q, o.price = some q → (mergePreviews b (some o)).price = some q) ∧
    (∀ b o, o.price = none → (mergePreviews b (some o)).price = b.price) ∧
    (∀ b o, strTruthy o.currency = true →
      (mergePreviews b (some o)).currency = o.currency) ∧
    (∀ b o, strTruthy o.currency = false →
      (mergePreviews b (some o)).currency = b.currency) ∧
    (∀ b o, o.images = none → (mergePreviews b (some o)).images = b.images) ∧
    (∀ b o, o.images = some [] → (mergePreviews b (some o)).images = b.images) ∧
    (∀ b o l, o.images = some l → l ≠ [] → (mergePreviews b (some o)).images = some l) ∧
    (∀ b o, o.source = none → (mergePreviews b (some o)).source = b.source) ∧
    (∀ b o t, o.source = some t → (mergePreviews b (some o)).source = some t) ∧
    (∀ b o, (mergePreviews b (some o)).warnings =
      some (b.warnings.getD [] ++ o.warnings.getD [])) := by
  refine ⟨fun b => rfl, ?_, fun b o => rfl, ?_, ?_, ?_, ?_, ?_, ?_, ?_, ?_, ?_, ?_,
    ?_, ?_, ?_, ?_, ?_, fun b o => rfl⟩
  · intro b u c
    simp [mergePreviews, emptyOverlay, pickStr, pickNum, jsOrStr, strTruthy]
  · intro b o h
    simp [mergePreviews, pickStr_truthy h]
  · intro b o h
    simp [mergePreviews, pickStr_falsy h]
  · intro b o h
    simp [mergePreviews, pickStr_truthy h]
  · intro b o h
    simp [mergePreviews, pickStr_falsy h]
  · intro b o h
    simp [mergePreviews, pickStr_truthy h]
  · intro b o h
    simp [mergePreviews, pickStr_falsy h]
  · intro b o q h
    simp [mergePreviews, pickNum, h]
  · intro b o h
    simp [mergePreviews, pickNum, h]
  · intro b o h
    simp [mergePreviews, pickStr_truthy h]
  · intro b o h
    simp [mergePreviews, pickStr_falsy h]
  · intro b o h
    simp [mergePreviews, h]
  · intro b o h
    simp [mergePreviews, h]
  · intro b o l h hne
    simp [mergePreviews, h, hne]
  · intro b o h
    simp [mergePreviews, h]
  · intro b o t h
    simp [mergePreviews, h]

/-- Witness for the amended C6: the truthy/falsy pick rules applied at
concrete fields of a concrete merge. -/
theorem c6_merge_amended_witness :
    (mergePreviews noWarnBase (some (emptyOverlay "https://overlay.example" 0))).url =
      noWarnBase.url ∧
    (mergePreviews noWarnBase
      (some { emptyOverlay "https://overlay.example" 0 with currency := some "USD" })).currency
      = some "USD" ∧
    (mergePreviews noWarnBase
      (some { emptyOverlay "https://overlay.example" 0 with currency := some "" })).currency
      = noWarnBase.currency := by
  refine ⟨c6_merge_amended.2.2.1 noWarnBase (emptyOverlay "https://overlay.example" 0),
    c6_merge_amended.2.2.2.2.2.2.2.2.2.2.2.1 noWarnBase _ (by decide), ?_⟩
  exact c6_merge_amended.2.2.2.2.2.2.2.2.2.2.2.2.1 noWarnBase _ (by decide)

/-! ## C7 — URL normalization idempotence

Generic lemmas about the splitting primitives, then the roundtrip
`parseUrl (serializeUrl r) = some r` for well-formed records, then the
fixed-point argument for `normalizeCore`. -/

theorem breakAt_of_not_mem {c : Char} {l : List Char} (h : c ∉ l) :
    breakAt c l = (l, none) := by
  induction l with
  | nil => rfl
  | cons x xs ih =>
    have hx : x ≠ c := fun he => h (he ▸ List.mem_cons_self x xs)
    simp only [breakAt, hx, if_false, ite_false]
    rw [ih (fun hm => h (List.mem_cons_of_mem x hm))]

theorem breakAt_append_of_not_mem {c : Char} {l1 l2 : List Char} (h : c ∉ l1) :
    breakAt c (l1 ++ c :: l2) = (l1, some l2) := by
  induction l1 with
  | nil => simp [breakAt]
  | cons x xs ih =>
    have hx : x ≠ c := fun he => h (he ▸ List.mem_cons_self x xs)
    simp only [List.cons_append, breakAt, List.append_eq, hx, if_false, ite_false]
    rw [ih (fun hm => h (List.mem_cons_of_mem x hm))]

theorem splitOnChar_ne_nil (c : Char) (l : List Char) : splitOnChar c l ≠ [] := by
  cases l with
  | nil => simp [splitOnChar]
  | cons x xs =>
    simp only [splitOnChar]
    cases splitOnChar c xs with
    | nil => simp
    | cons s rest =>
      by_cases hx : x = c <;> simp [hx]

theorem splitOnChar_of_not_mem {c : Char} {l : List Char} (h : c ∉ l) :
    splitOnChar c l = [l] := by
  induction l with
  | nil => rfl
  | cons x xs ih =>
    have hx : x ≠ c := fun he => h (he ▸ List.mem_cons_self x xs)
    simp only [splitOnChar, ih (fun hm => h (List.mem_cons_of_mem x hm)), hx,
      if_false, ite_false]

theorem splitOnChar_append {c : Char} {l1 l2 : List Char} (h : c ∉ l1) :
    splitOnChar c (l1 ++ c :: l2) = l1 :: splitOnChar c l2 := by
  induction l1 with
  | nil =>
    simp only [List.nil_append, splitOnChar]
    cases hs : splitOnChar c l2 with
    | nil => exact absurd hs (splitOnChar_ne_nil c l2)
    | cons s rest => simp
  | cons x xs ih =>
    have hx : x ≠ c := fun he => h (he ▸ List.mem_cons_self x xs)
    simp only [List.cons_append, splitOnChar, List.append_eq,
      ih (fun hm => h (List.mem_cons_of_mem x hm)), hx, if_false, ite_false]

theorem splitOnChar_append_sep (c : Char) (l : List Char) :
    splitOnChar c (l ++ [c]) = splitOnChar c l ++ [[]] := by
  induction l with
  | nil => simp [splitOnChar]
  | cons x xs ih =>
    simp only [List.cons_append, splitOnChar, List.append_eq]
    rw [ih]
    cases hs : splitOnChar c xs with
    | nil => exact absurd hs (splitOnChar_ne_nil c xs)
    | cons s rest =>
      by_cases hx : x = c <;> simp [hx]

theorem splitOnChar_mem_subset {c : Char} {l p : List Char}
    (hp : p ∈ splitOnChar c l) : ∀ x ∈ p, x ∈ l := by
  induction l generalizing p with
  | nil =>
    simp only [splitOnChar, List.mem_singleton] at hp
    subst hp
    simp
  | cons y ys ih =>
    simp only [splitOnChar] at hp
    cases hs : splitOnChar c ys with
    | nil => exact absurd hs (splitOnChar_ne_nil c ys)
    | cons s rest =>
      rw [hs] at hp
      by_cases hy : y = c
      · simp only [hy, if_true, ite_true, List.mem_cons] at hp
        rcases hp with hp | hp | hp
        · subst hp; simp
        · intro x hx
          exact List.mem_cons_of_mem _ (ih (hs ▸ List.mem_cons_self s rest) x (hp ▸ hx))
        · intro x hx
          exact List.mem_cons_of_mem _ (ih (hs ▸ List.mem_cons_of_mem s hp) x hx)
      · simp only [hy, if_false, ite_false, List.mem_cons] at hp
        rcases hp with hp | hp
        · subst hp
          intro x hx
          rcases List.mem_cons.mp hx with hx | hx
          · exact hx ▸ List.mem_cons_self y ys
          · exact List.mem_cons_of_mem _ (ih (hs ▸ List.mem_cons_self s rest) x hx)
        · intro x hx
          exact List.mem_cons_of_mem _ (ih (hs ▸ List.mem_cons_of_mem s hp) x hx)

theorem splitOnChar_sep_not_mem {c : Char} {l p : List Char}
    (hp : p ∈ splitOnChar c l) : c ∉ p := by
  induction l generalizing p with
  | nil =>
    simp only [splitOnChar, List.mem_singleton] at hp
    subst hp
    simp
  | cons y ys ih =>
    simp only [splitOnChar] at hp
    cases hs : splitOnChar c ys with
    | nil => exact absurd hs (splitOnChar_ne_nil c ys)
    | cons s rest =>
      rw [hs] at hp
      by_cases hy : y = c
      · simp only [hy, if_true, ite_true, List.mem_cons] at hp
        rcases hp with hp | hp | hp
        · subst hp; simp
        · exact hp.symm ▸ ih (hs ▸ List.mem_cons_self s rest)
        · exact ih (hs ▸ List.mem_cons_of_mem s hp)
      · simp only [hy, if_false, ite_false, List.mem_cons] at hp
        rcases hp with hp | hp
        · subst hp
          intro hx
          rcases List.mem_cons.mp hx with hx | hx
          · exact hy hx.symm
          · exact ih (hs ▸ List.mem_cons_self s rest) hx
        · exact ih (hs ▸ List.mem_cons_of_mem s hp)

theorem joinSep_split {c : Char} {parts : List (List Char)} (hne : parts ≠ [])
    (h : ∀ p ∈ parts, c ∉ p) : splitOnChar c (joinSep c parts) = parts := by
  induction parts with
  | nil => exact absurd rfl hne
  | cons s rest ih =>
    cases rest with
    | nil =>
      simp only [joinSep]
      exact splitOnChar_of_not_mem (h s (List.mem_cons_self s []))
    | cons s2 rest2 =>
      have hjoin : joinSep c (s :: s2 :: rest2) = s ++ c :: joinSep c (s2 :: rest2) := rfl
      rw [hjoin, splitOnChar_append (h s (List.mem_cons_self s _)),
        ih (by simp) (fun p hp => h p (List.mem_cons_of_mem s hp))]

/-! ### Character class bridging lemmas -/

theorem char_eq_iff_toNat {a b : Char} : a = b ↔ a.toNat = b.toNat := by
  constructor
  · intro h; rw [h]
  · intro h
    exact Char.eq_of_val_eq (UInt32.ext h)

theorem isDigit_bounds {c : Char} (h : c.isDigit = true) :
    48 ≤ c.toNat ∧ c.toNat ≤ 57 := by
  simp only [Char.isDigit, ge_iff_le, Bool.and_eq_true, decide_eq_true_eq] at h
  obtain ⟨h1, h2⟩ := h
  rw [UInt32.le_def, BitVec.le_def] at h1 h2
  exact ⟨h1, h2⟩

theorem isUpper_bounds {c : Char} (h : c.isUpper = true) :
    65 ≤ c.toNat ∧ c.toNat ≤ 90 := by
  simp only [Char.isUpper, ge_iff_le, Bool.and_eq_true, decide_eq_true_eq] at h
  obtain ⟨h1, h2⟩ := h
  rw [UInt32.le_def, BitVec.le_def] at h1 h2
  exact ⟨h1, h2⟩

theorem isLower_bounds {c : Char} (h : c.isLower = true) :
    97 ≤ c.toNat ∧ c.toNat ≤ 122 := by
  simp only [Char.isLower, ge_iff_le, Bool.and_eq_true, decide_eq_true_eq] at h
  obtain ⟨h1, h2⟩ := h
  rw [UInt32.le_def, BitVec.le_def] at h1 h2
  exact ⟨h1, h2⟩

theorem alnum_bounds {c : Char} (h : c.isAlphanum = true) :
    (48 ≤ c.toNat ∧ c.toNat ≤ 57) ∨ (65 ≤ c.toNat ∧ c.toNat ≤ 90) ∨
    (97 ≤ c.toNat ∧ c.toNat ≤ 122) := by
  simp only [Char.isAlphanum, Char.isAlpha, Bool.or_eq_true] at h
  rcases h with (h | h) | h
  · exact Or.inr (Or.inl (isUpper_bounds h))
  · exact Or.inr (Or.inr (isLower_bounds h))
  · exact Or.inl (isDigit_bounds h)

theorem toUpper_of_not_lower {c : Char} (h : ¬ (97 ≤ c.toNat ∧ c.toNat ≤ 122)) :
    c.toUpper = c := by
  unfold Char.toUpper
  rw [if_neg]
  simpa [Char.toNat] using h

theorem toLower_of_not_upper {c : Char} (h : ¬ (65 ≤ c.toNat ∧ c.toNat ≤ 90)) :
    c.toLower = c := by
  unfold Char.toLower
  rw [if_neg]
  simpa [Char.toNat] using h

theorem toUpper_toNat_of_lower {c : Char} (h1 : 97 ≤ c.toNat) (h2 : c.toNat ≤ 122) :
    c.toUpper.toNat = c.toNat - 32 := by
  unfold Char.toUpper
  rw [if_pos (by simpa [Char.toNat] using And.intro h1 h2)]
  simp only [Char.toNat, UInt32.toNat] at *
  have hv : Nat.isValidChar (c.val.toBitVec.toNat - 32) := Or.inl (by omega)
  unfold Char.ofNat
  rw [dif_pos hv]
  rfl

theorem toUpper_alnum_bounds {c : Char} (h : c.isAlphanum = true) :
    (48 ≤ c.toUpper.toNat ∧ c.toUpper.toNat ≤ 57) ∨
    (65 ≤ c.toUpper.toNat ∧ c.toUpper.toNat ≤ 90) := by
  rcases alnum_bounds h with hb | hb | hb
  · rw [toUpper_of_not_lower (by omega)]
    exact Or.inl hb
  · rw [toUpper_of_not_lower (by omega)]
    exact Or.inr hb
  · rw [toUpper_toNat_of_lower hb.1 hb.2]
    right
    omega

theorem isAlphanum_of_bounds {c : Char}
    (h : (48 ≤ c.toNat ∧ c.toNat ≤ 57) ∨ (65 ≤ c.toNat ∧ c.toNat ≤ 90) ∨
      (97 ≤ c.toNat ∧ c.toNat ≤ 122)) : c.isAlphanum = true := by
  have hle : ∀ a b : UInt32, a.toNat ≤ b.toNat → a ≤ b := by
    intro a b hab
    rw [UInt32.le_def, BitVec.le_def]
    exact hab
  simp only [Char.isAlphanum, Char.isAlpha, Char.isUpper, Char.isLower, Char.isDigit,
    ge_iff_le, Bool.or_eq_true, Bool.and_eq_true, decide_eq_true_eq]
  simp only [Char.toNat] at h
  rcases h with ⟨h1, h2⟩ | ⟨h1, h2⟩ | ⟨h1, h2⟩
  · exact Or.inr ⟨hle _ _ (by simpa using h1), hle _ _ (by simpa using h2)⟩
  · exact Or.inl (Or.inl ⟨hle _ _ (by simpa using h1), hle _ _ (by simpa using h2)⟩)
  · exact Or.inl (Or.inr ⟨hle _ _ (by simpa using h1), hle _ _ (by simpa using h2)⟩)

theorem toUpper_alnum_isAlphanum {c : Char} (h : c.isAlphanum = true) :
    c.toUpper.isAlphanum = true := by
  rcases toUpper_alnum_bounds h with hb | hb
  · exact isAlphanum_of_bounds (Or.inl hb)
  · exact isAlphanum_of_bounds (Or.inr (Or.inl hb))

theorem toUpper_idem_alnum {c : Char} (h : c.isAlphanum = true) :
    c.toUpper.toUpper = c.toUpper := by
  rcases toUpper_alnum_bounds h with hb | hb <;>
    exact toUpper_of_not_lower (by omega)

theorem char_ne_of_toNat_ne {c d : Char} (h : c.toNat ≠ d.toNat) : c ≠ d :=
  fun he => h (by rw [he])

theorem not_mem_of_all {α : Type} {p : α → Bool} {l : List α} (h : l.all p = true)
    {c : α} (hc : p c = false) : c ∉ l := by
  intro hm
  have := List.all_eq_true.mp h c hm
  rw [hc] at this
  exact Bool.false_ne_true this

theorem breakAt_eq_none {c : Char} {l a : List Char} (h : breakAt c l = (a, none)) :
    a = l ∧ c ∉ l := by
  induction l generalizing a with
  | nil =>
    simp only [breakAt, Prod.mk.injEq] at h
    exact ⟨h.1.symm, by simp⟩
  | cons x xs ih =>
    by_cases hx : x = c
    · simp [breakAt, hx] at h
    · simp only [breakAt, hx, if_false, ite_false, Prod.mk.injEq] at h
      obtain ⟨ha, hrest⟩ := h
      have hbk : breakAt c xs = ((breakAt c xs).1, none) := by
        rw [← hrest]
      obtain ⟨h1, h2⟩ := ih hbk
      refine ⟨by rw [← ha, h1], ?_⟩
      intro hm
      rcases List.mem_cons.mp hm with hm | hm
      · exact hx hm.symm
      · exact h2 hm

theorem breakAt_eq_some {c : Char} {l a b : List Char}
    (h : breakAt c l = (a, some b)) : l = a ++ c :: b ∧ c ∉ a := by
  induction l generalizing a with
  | nil => simp [breakAt] at h
  | cons x xs ih =>
    by_cases hx : x = c
    · simp only [breakAt, hx, if_true, ite_true, Prod.mk.injEq] at h
      obtain ⟨ha, hb⟩ := h
      subst hx
      rw [← ha]
      injection hb with hb
      rw [hb]
      exact ⟨rfl, by simp⟩
    · simp only [breakAt, hx, if_false, ite_false, Prod.mk.injEq] at h
      obtain ⟨ha, hrest⟩ := h
      have hbk : breakAt c xs = ((breakAt c xs).1, some b) := by
        rw [← hrest]
      obtain ⟨h1, h2⟩ := ih hbk
      refine ⟨?_, ?_⟩
      · rw [← ha, List.cons_append, ← h1]
      · intro hm
        rw [← ha] at hm
        rcases List.mem_cons.mp hm with hm | hm
        · exact hx hm.symm
        · exact h2 hm

/-! ### Query string roundtrip -/

theorem qcChar_eq_false : qcChar '=' = false ∧ qcChar '&' = false := by decide

theorem queryChar_of_qc {c : Char} (h : qcChar c = true) : queryChar c = true := by
  simp [queryChar, h]

theorem queryChar_of_qceq {c : Char} (h : (qcChar c || c = '=') = true) :
    queryChar c = true := by
  simp only [Bool.or_eq_true, decide_eq_true_eq] at h
  rcases h with h | h <;> simp [queryChar, h]

theorem parsePair_serializePair {p : QueryPair} (h : CanonPair p) :
    parsePair (serializePair p) = p := by
  have hnm : '=' ∉ p.key := not_mem_of_all h.1 (by decide)
  simp only [parsePair, serializePair, breakAt_append_of_not_mem hnm]

theorem serializePair_all {p : QueryPair} (h : CanonPair p) :
    (serializePair p).all queryChar = true := by
  obtain ⟨hk, hv⟩ := h
  simp only [serializePair, List.all_append, List.all_cons, Bool.and_eq_true]
  refine ⟨?_, by decide, ?_⟩
  · exact List.all_eq_true.mpr fun c hc =>
      queryChar_of_qc (List.all_eq_true.mp hk c hc)
  · exact List.all_eq_true.mpr fun c hc =>
      queryChar_of_qceq (List.all_eq_true.mp hv c hc)

theorem serializePair_ne_nil (p : QueryPair) : serializePair p ≠ [] := by
  simp [serializePair]

theorem serializePair_no_amp {p : QueryPair} (h : CanonPair p) :
    '&' ∉ serializePair p := by
  intro hm
  rcases List.mem_append.mp hm with hm | hm
  · exact absurd (List.all_eq_true.mp h.1 _ hm) (by decide)
  · rcases List.mem_cons.mp hm with hm | hm
    · exact absurd hm (by decide)
    · exact absurd (List.all_eq_true.mp h.2 _ hm) (by decide)

theorem serializeQuery_cons₂ (p q : QueryPair) (rest : List QueryPair) :
    serializeQuery (p :: q :: rest) =
      serializePair p ++ '&' :: serializeQuery (q :: rest) := rfl

theorem serializeQuery_all {ps : List QueryPair} (h : ∀ p ∈ ps, CanonPair p) :
    (serializeQuery ps).all queryChar = true := by
  induction ps with
  | nil => rfl
  | cons p rest ih =>
    cases rest with
    | nil => exact serializePair_all (h p (List.mem_cons_self p []))
    | cons q rest2 =>
      rw [serializeQuery_cons₂]
      simp only [List.all_append, List.all_cons, Bool.and_eq_true]
      exact ⟨serializePair_all (h p (List.mem_cons_self p _)), by decide,
        ih (fun x hx => h x (List.mem_cons_of_mem p hx))⟩

theorem parseQuery_serializeQuery {ps : List QueryPair}
    (h : ∀ p ∈ ps, CanonPair p) : parseQuery (serializeQuery ps) = ps := by
  cases hps : ps with
  | nil => decide
  | cons p0 rest =>
  rw [← hps]
  have hne : ps ≠ [] := by rw [hps]; simp
  have hsplit : splitOnChar '&' (serializeQuery ps) = ps.map serializePair := by
    refine joinSep_split (by simpa using hne)
      (fun s hs => ?_)
    obtain ⟨q, hq, hqs⟩ := List.mem_map.mp hs
    exact hqs ▸ serializePair_no_amp (h q hq)
  simp only [parseQuery, hsplit]
  have hfil : (ps.map serializePair).filter (· ≠ []) = ps.map serializePair := by
    refine List.filter_eq_self.mpr fun s hs => ?_
    obtain ⟨q, _, hqs⟩ := List.mem_map.mp hs
    simpa using hqs ▸ serializePair_ne_nil q
  rw [hfil, List.map_map]
  have : ∀ q ∈ ps, (parsePair ∘ serializePair) q = q := fun q hq =>
    parsePair_serializePair (h q hq)
  calc ps.map (parsePair ∘ serializePair) = ps.map id := List.map_congr_left this
    _ = ps := List.map_id ps

theorem parseQuery_canon {q : List Char} (hq : q.all queryChar = true) :
    ∀ p ∈ parseQuery q, CanonPair p := by
  intro p hp
  simp only [parseQuery, List.mem_map] at hp
  obtain ⟨seg, hseg, hps⟩ := hp
  have hseg' : seg ∈ splitOnChar '&' q := (List.mem_filter.mp hseg).1
  have hsub : ∀ x ∈ seg, x ∈ q := splitOnChar_mem_subset hseg'
  have hamp : '&' ∉ seg := splitOnChar_sep_not_mem hseg'
  have hqc : ∀ x ∈ seg, queryChar x = true := fun x hx =>
    List.all_eq_true.mp hq x (hsub x hx)
  have hkey : ∀ {k : List Char}, (∀ x ∈ k, x ∈ seg) → '=' ∉ k →
      k.all qcChar = true := by
    intro k hk hne
    refine List.all_eq_true.mpr fun x hx => ?_
    have hqx := hqc x (hk x hx)
    simp only [queryChar, Bool.or_eq_true, decide_eq_true_eq] at hqx
    rcases hqx with (hqx | hqx) | hqx
    · exact hqx
    · exact absurd (hqx ▸ hk x hx) hamp
    · exact absurd (hqx ▸ hx) hne
  rw [← hps]
  unfold parsePair
  cases hbk : breakAt '=' seg with
  | mk k vo =>
    cases vo with
    | none =>
      obtain ⟨hkeq, hnm⟩ := breakAt_eq_none hbk
      subst hkeq
      exact ⟨hkey (fun x hx => hx) hnm, rfl⟩
    | some v =>
      obtain ⟨hseq, hnm⟩ := breakAt_eq_some hbk
      refine ⟨hkey (fun x hx => hseq ▸ List.mem_append_left _ hx) hnm, ?_⟩
      refine List.all_eq_true.mpr fun x hx => ?_
      have hxseg : x ∈ seg := hseq ▸ List.mem_append_right _ (List.mem_cons_of_mem _ hx)
      have hqx := hqc x hxseg
      simp only [queryChar, Bool.or_eq_true, decide_eq_true_eq] at hqx
      simp only [Bool.or_eq_true, decide_eq_true_eq]
      rcases hqx with (hqx | hqx) | hqx
      · exact Or.inl hqx
      · exact absurd (hqx ▸ hxseg) hamp
      · exact Or.inr hqx

/-! ### Hostname lowercasing -/

theorem toLower_fixed_of_hostChar {c : Char} (h : hostChar c = true) :
    c.toLower = c := by
  simp only [hostChar, Bool.or_eq_true, decide_eq_true_eq] at h
  rcases h with (((h | h) | h) | h) | h
  · exact toLower_of_not_upper (by have := isLower_bounds h; omega)
  · exact toLower_of_not_upper (by have := isDigit_bounds h; omega)
  · subst h; decide
  · subst h; decide
  · subst h; decide

theorem map_toLower_of_hostChar {l : List Char} (h : l.all hostChar = true) :
    l.map Char.toLower = l := by
  induction l with
  | nil => rfl
  | cons c cs ih =>
    simp only [List.all_cons, Bool.and_eq_true] at h
    simp only [List.map_cons, toLower_fixed_of_hostChar h.1, ih h.2]

theorem not_mem_append {α : Type} {c : α} {a b : List α} (ha : c ∉ a)
    (hb : c ∉ b) : c ∉ a ++ b := by
  intro hm
  rcases List.mem_append.mp hm with h | h
  · exact ha h
  · exact hb h

/-! ### parseUrl inversion and roundtrip -/

theorem splitScheme_https (rest : List Char) :
    splitScheme ("https".data ++ ':' :: '/' :: '/' :: rest) =
      some ("https".data, rest) := by
  unfold splitScheme
  rw [breakAt_append_of_not_mem (by decide)]
  rfl

theorem parseUrl_RecOk {l : List Char} {r : UrlRec} (h : parseUrl l = some r) :
    RecOk r := by
  unfold parseUrl at h
  cases hsp : splitScheme l with
  | none => rw [hsp] at h; simp at h
  | some pr =>
    rw [hsp] at h
    obtain ⟨schRaw, rest⟩ := pr
    simp only [Option.bind_eq_bind, Option.some_bind] at h
    cases hbf : breakAt '#' rest with
    | mk beforeFrag fragOpt =>
      simp only [hbf] at h
      cases hbq : breakAt '?' beforeFrag with
      | mk beforeQuery queryOpt =>
        simp only [hbq] at h
        cases hbh : breakAt '/' beforeQuery with
        | mk hostRaw pathOpt =>
          simp only [hbh] at h
          split at h
          · next hcond =>
            injection h with h
            simp only [Bool.and_eq_true, Bool.or_eq_true, decide_eq_true_eq,
              ne_eq] at hcond
            obtain ⟨⟨⟨⟨⟨hsch, hschme⟩, hfrag⟩, hquery⟩, hhne, hhall⟩,
              hpall, hpdots⟩ := hcond
            rw [← h]
            refine ⟨hhne, hhall, ?_, hpall, hpdots, ?_, ?_⟩
            · cases pathOpt with
              | none => exact ⟨[], rfl⟩
              | some p => exact ⟨p, rfl⟩
            · cases queryOpt with
              | none => exact trivial
              | some q =>
                simp only at hquery
                exact parseQuery_canon hquery
            · intro f hf
              cases fragOpt with
              | none => simp at hf
              | some f2 =>
                injection hf with hf
                rw [← hf]
                simpa using hfrag
          · exact absurd h (by simp)

theorem parseUrl_serializeUrl {r : UrlRec} (hok : RecOk r)
    (hs : r.scheme = "https".data) : parseUrl (serializeUrl r) = some r := by
  obtain ⟨sch, host, path, qo, fo⟩ := r
  have hne : host ≠ [] := hok.host_ne
  have hho : host.all hostChar = true := hok.host_ok
  have hph : ∃ t, path = '/' :: t := hok.path_head
  have hpo : path.all (fun c => c = '/' || pathChar c) = true := hok.path_ok
  have hpd : noDotSegs path = true := hok.path_dots
  have hqo : CanonQueryOpt qo := hok.query_ok
  have hfo : ∀ f, fo = some f → f.all fragChar = true := hok.frag_ok
  have hs' : sch = "https".data := hs
  subst hs'
  obtain ⟨t, rfl⟩ := hph
  have hlow : List.map Char.toLower "https".data = "https".data := by decide
  have hhostlow := map_toLower_of_hostChar hho
  have hh1 : '#' ∉ host := not_mem_of_all hho (by decide)
  have hh2 : '?' ∉ host := not_mem_of_all hho (by decide)
  have hh3 : '/' ∉ host := not_mem_of_all hho (by decide)
  have hp1 : '#' ∉ '/' :: t := not_mem_of_all hpo (by decide)
  have hp2 : '?' ∉ '/' :: t := not_mem_of_all hpo (by decide)
  have hb3 : breakAt '/' (host ++ '/' :: t) = (host, some t) :=
    breakAt_append_of_not_mem hh3
  have hschcl : schemeOk "https".data = true := by decide
  rcases qo with _ | ps <;> rcases fo with _ | f
  · -- no query, no fragment
    have hser : serializeUrl ⟨"https".data, host, '/' :: t, none, none⟩ =
        "https".data ++ ':' :: '/' :: '/' :: (host ++ '/' :: t) := by
      simp [serializeUrl]
    have hb1 : breakAt '#' (host ++ '/' :: t) = (host ++ '/' :: t, none) :=
      breakAt_of_not_mem (not_mem_append hh1 hp1)
    have hb2 : breakAt '?' (host ++ '/' :: t) = (host ++ '/' :: t, none) :=
      breakAt_of_not_mem (not_mem_append hh2 hp2)
    rw [hser]
    unfold parseUrl
    rw [splitScheme_https]
    simp only [Option.bind_eq_bind, Option.some_bind, hb1, hb2,
      hb3, hhostlow, hlow, hschcl]
    simp [hne, hho, hpo, hpd]
  · -- no query, fragment
    have hser : serializeUrl ⟨"https".data, host, '/' :: t, none, some f⟩ =
        "https".data ++ ':' :: '/' :: '/' :: ((host ++ '/' :: t) ++ '#' :: f) := by
      simp [serializeUrl, List.append_assoc]
    have hb1 : breakAt '#' ((host ++ '/' :: t) ++ '#' :: f) =
        (host ++ '/' :: t, some f) :=
      breakAt_append_of_not_mem (not_mem_append hh1 hp1)
    have hb2 : breakAt '?' (host ++ '/' :: t) = (host ++ '/' :: t, none) :=
      breakAt_of_not_mem (not_mem_append hh2 hp2)
    rw [hser]
    unfold parseUrl
    rw [splitScheme_https]
    simp only [Option.bind_eq_bind, Option.some_bind, hb1, hb2,
      hb3, hhostlow, hlow, hschcl]
    simp [hne, hho, hpo, hpd, hfo f rfl]
  · -- query, no fragment
    have hq' : ∀ p ∈ ps, CanonPair p := hqo
    have hqall : (serializeQuery ps).all queryChar = true := serializeQuery_all hq'
    have hq1 : '#' ∉ '?' :: serializeQuery ps := by
      intro hm
      rcases List.mem_cons.mp hm with hm | hm
      · exact absurd hm (by decide)
      · exact not_mem_of_all hqall (by decide) hm
    have hser : serializeUrl ⟨"https".data, host, '/' :: t, some ps, none⟩ =
        "https".data ++ ':' :: '/' :: '/' ::
          ((host ++ '/' :: t) ++ '?' :: serializeQuery ps) := by
      simp [serializeUrl, List.append_assoc]
    have hb1 : breakAt '#' ((host ++ '/' :: t) ++ '?' :: serializeQuery ps) =
        ((host ++ '/' :: t) ++ '?' :: serializeQuery ps, none) :=
      breakAt_of_not_mem (not_mem_append (not_mem_append hh1 hp1) hq1)
    have hb2 : breakAt '?' ((host ++ '/' :: t) ++ '?' :: serializeQuery ps) =
        (host ++ '/' :: t, some (serializeQuery ps)) :=
      breakAt_append_of_not_mem (not_mem_append hh2 hp2)
    rw [hser]
    unfold parseUrl
    rw [splitScheme_https]
    simp only [Option.bind_eq_bind, Option.some_bind, hb1, hb2,
      hb3, hhostlow, hlow, hschcl]
    simp [hne, hho, hpo, hpd, hqall, parseQuery_serializeQuery hq']
  · -- query and fragment
    have hq' : ∀ p ∈ ps, CanonPair p := hqo
    have hqall : (serializeQuery ps).all queryChar = true := serializeQuery_all hq'
    have hq1 : '#' ∉ '?' :: serializeQuery ps := by
      intro hm
      rcases List.mem_cons.mp hm with hm | hm
      · exact absurd hm (by decide)
      · exact not_mem_of_all hqall (by decide) hm
    have hser : serializeUrl ⟨"https".data, host, '/' :: t, some ps, some f⟩ =
        "https".data ++ ':' :: '/' :: '/' ::
          (((host ++ '/' :: t) ++ '?' :: serializeQuery ps) ++ '#' :: f) := by
      simp [serializeUrl, List.append_assoc]
    have hb1 : breakAt '#'
        ((((host ++ '/' :: t) ++ '?' :: serializeQuery ps)) ++ '#' :: f) =
        ((host ++ '/' :: t) ++ '?' :: serializeQuery ps, some f) :=
      breakAt_append_of_not_mem (not_mem_append (not_mem_append hh1 hp1) hq1)
    have hb2 : breakAt '?' ((host ++ '/' :: t) ++ '?' :: serializeQuery ps) =
        (host ++ '/' :: t, some (serializeQuery ps)) :=
      breakAt_append_of_not_mem (not_mem_append hh2 hp2)
    rw [hser]
    unfold parseUrl
    rw [splitScheme_https]
    simp only [Option.bind_eq_bind, Option.some_bind, hb1, hb2,
      hb3, hhostlow, hlow, hschcl]
    simp [hne, hho, hpo, hpd, hqall, parseQuery_serializeQuery hq', hfo f rfl]

/-! ### Tracking-parameter stripping -/

theorem stripTracking_some (ps : List QueryPair) :
    stripTracking (some ps) =
      if (ps.filter (fun p => ¬ isTrackingKey p.key)).length = ps.length then some ps
      else if ps.filter (fun p => ¬ isTrackingKey p.key) = [] then none
      else some (ps.filter (fun p => ¬ isTrackingKey p.key)) := rfl

theorem stripTracking_canon {q : Option (List QueryPair)} (h : CanonQueryOpt q) :
    CanonQueryOpt (stripTracking q) := by
  cases q with
  | none => exact trivial
  | some ps =>
    rw [stripTracking_some]
    split_ifs with h1 h2
    · exact h
    · exact trivial
    · intro p hp
      exact h p (List.mem_filter.mp hp).1

theorem stripTracking_noTracking (q : Option (List QueryPair)) :
    NoTracking (stripTracking q) := by
  cases q with
  | none => exact trivial
  | some ps =>
    rw [stripTracking_some]
    split_ifs with h1 h2
    · intro p hp
      have hkeq : ps.filter (fun p => ¬ isTrackingKey p.key) = ps :=
        List.Sublist.eq_of_length (List.filter_sublist ps) h1
      have hmem := List.mem_filter.mp (hkeq ▸ hp)
      simpa using hmem.2
    · exact trivial
    · intro p hp
      simpa using (List.mem_filter.mp hp).2

theorem stripTracking_fixed {q : Option (List QueryPair)} (h : NoTracking q) :
    stripTracking q = q := by
  cases q with
  | none => rfl
  | some ps =>
    have hfil : ps.filter (fun p => ¬ isTrackingKey p.key) = ps := by
      refine List.filter_eq_self.mpr fun p hp => ?_
      simp [h p hp]
    rw [stripTracking_some, hfil]
    simp

/-! ### Trailing-slash stripping -/

theorem stripSlash_noop {p : List Char} (h : noTrailingSlash p = true) :
    stripSlash p = p := by
  unfold noTrailingSlash at h
  simp only [Bool.or_eq_true, decide_eq_true_eq, ne_eq] at h
  unfold stripSlash
  split
  · next hc =>
    exfalso
    rcases h with h | h
    · exact hc.1 h
    · exact h hc.2
  · rfl

theorem eq_dropLast_append {p : List Char} (h : p.getLast? = some '/') :
    p = p.dropLast ++ ['/'] := by
  have hne : p ≠ [] := by rintro rfl; simp at h
  have hg : p.getLast hne = '/' := by
    have hh := List.getLast?_eq_getLast p hne
    rw [hh] at h
    injection h
  conv_lhs => rw [← List.dropLast_append_getLast hne]
  rw [hg]

theorem UrlRec.ext' {a b : UrlRec} (h1 : a.scheme = b.scheme)
    (h2 : a.host = b.host) (h3 : a.path = b.path) (h4 : a.query = b.query)
    (h5 : a.frag = b.frag) : a = b := by
  cases a
  cases b
  congr 1

/-! ### ASIN matching -/

theorem asinHere_eq (cs : List Char) :
    asinHere cs =
      if (cs.take 10).length = 10 && (cs.take 10).all isAsinChar &&
          (match cs.drop 10 with
           | [] => true
           | c :: _ => c = '/' || c = '?') then
        some (cs.take 10)
      else none := rfl

theorem findAsin_cons (c : Char) (cs : List Char) :
    findAsin (c :: cs) =
      if c = '/' then
        match asinHere cs with
        | some a => some a
        | none => findAsin cs
      else findAsin cs := rfl

theorem asinHere_spec {cs a : List Char} (h : asinHere cs = some a) :
    a = cs.take 10 ∧ a.length = 10 ∧ a.all isAsinChar = true := by
  rw [asinHere_eq] at h
  split at h
  · next hcond =>
    injection h with h
    simp only [Bool.and_eq_true, decide_eq_true_eq] at hcond
    exact ⟨h.symm, by rw [← h]; exact hcond.1.1, by rw [← h]; exact hcond.1.2⟩
  · exact absurd h (by simp)

theorem asinHere_full {a : List Char} (hlen : a.length = 10)
    (hall : a.all isAsinChar = true) : asinHere a = some a := by
  have ht : a.take 10 = a := by rw [← hlen]; exact List.take_length a
  have hd : a.drop 10 = [] := by rw [← hlen]; exact List.drop_length a
  rw [asinHere_eq, ht, hd]
  simp [hlen, hall]

theorem asinHere_append_slash {cs a : List Char} (h : asinHere cs = some a) :
    asinHere (cs ++ ['/']) = some a := by
  obtain ⟨hta, hlen, hall⟩ := asinHere_spec h
  rw [asinHere_eq] at h
  have hle : 10 ≤ cs.length := by
    have hlt := List.length_take 10 cs
    rw [hta] at hlen
    omega
  rw [asinHere_eq, List.take_append_of_le_length hle,
    List.drop_append_of_le_length hle]
  split at h
  · next hcond =>
    injection h with h
    simp only [Bool.and_eq_true, decide_eq_true_eq] at hcond
    obtain ⟨⟨hl10, hall10⟩, hbound⟩ := hcond
    split
    · rw [h]
    · next hneg =>
      exfalso
      apply hneg
      simp only [Bool.and_eq_true, decide_eq_true_eq]
      refine ⟨⟨hl10, hall10⟩, ?_⟩
      cases hdrop : cs.drop 10 with
      | nil => simp
      | cons c rest =>
        rw [hdrop] at hbound
        simpa using hbound
  · exact absurd h (by simp)

theorem findAsin_spec {p a : List Char} (h : findAsin p = some a) :
    a.length = 10 ∧ a.all isAsinChar = true := by
  induction p with
  | nil => simp [findAsin] at h
  | cons c cs ih =>
    rw [findAsin_cons] at h
    split at h
    · cases hah : asinHere cs with
      | some a2 =>
        simp only [hah] at h
        injection h with h
        obtain ⟨hta, hlen, hall⟩ := asinHere_spec hah
        rw [← h]
        exact ⟨hlen, hall⟩
      | none =>
        simp only [hah] at h
        exact ih h
    · exact ih h

theorem asinHere_dp_blocked (l : List Char) :
    asinHere ('d' :: 'p' :: '/' :: l) = none := by
  rw [asinHere_eq]
  refine if_neg fun hcond => ?_
  simp only [Bool.and_eq_true, decide_eq_true_eq] at hcond
  have hall := hcond.1.2
  have hmem : ('/' : Char) ∈ ('d' :: 'p' :: '/' :: l).take 10 := by
    show ('/' : Char) ∈ 'd' :: 'p' :: '/' :: l.take 7
    simp
  exact absurd (List.all_eq_true.mp hall '/' hmem) (by decide)

theorem findAsin_dp {a : List Char} (hlen : a.length = 10)
    (hall : a.all isAsinChar = true) :
    findAsin ("/dp/".data ++ a) = some a := by
  have h1 : "/dp/".data ++ a = '/' :: 'd' :: 'p' :: '/' :: a := rfl
  rw [h1, findAsin_cons, if_pos rfl]
  simp only [asinHere_dp_blocked]
  rw [findAsin_cons, if_neg (by decide)]
  rw [findAsin_cons, if_neg (by decide)]
  rw [findAsin_cons, if_pos rfl]
  simp only [asinHere_full hlen hall]

theorem findAsin_append_slash {p : List Char} (h : findAsin (p ++ ['/']) = none) :
    findAsin p = none := by
  induction p with
  | nil => rfl
  | cons c cs ih =>
    rw [List.cons_append, findAsin_cons] at h
    rw [findAsin_cons]
    split at h
    · next hc =>
      rw [if_pos hc]
      cases hah : asinHere cs with
      | some a =>
        rw [asinHere_append_slash hah] at h
        exact absurd h (by simp)
      | none =>
        simp only [hah]
        cases hah2 : asinHere (cs ++ ['/']) with
        | some a2 =>
          rw [hah2] at h
          simp at h
        | none =>
          simp only [hah2] at h
          exact ih h
    · next hc =>
      rw [if_neg hc]
      exact ih h

/-! ### amazonStep and normalizeCore -/

theorem pathChar_of_alnum_upper {c : Char}
    (h : (48 ≤ c.toNat ∧ c.toNat ≤ 57) ∨ (65 ≤ c.toNat ∧ c.toNat ≤ 90)) :
    pathChar c = true := by
  have h1 : c ≠ '?' := char_ne_of_toNat_ne (show c.toNat ≠ 63 by omega)
  have h2 : c ≠ '#' := char_ne_of_toNat_ne (show c.toNat ≠ 35 by omega)
  have h3 : c ≠ '"' := char_ne_of_toNat_ne (show c.toNat ≠ 34 by omega)
  have h4 : c ≠ '<' := char_ne_of_toNat_ne (show c.toNat ≠ 60 by omega)
  have h5 : c ≠ '>' := char_ne_of_toNat_ne (show c.toNat ≠ 62 by omega)
  have h6 : c ≠ '\x60' := char_ne_of_toNat_ne (show c.toNat ≠ 96 by omega)
  have h7 : c ≠ '\x7b' := char_ne_of_toNat_ne (show c.toNat ≠ 123 by omega)
  have h8 : c ≠ '\x7d' := char_ne_of_toNat_ne (show c.toNat ≠ 125 by omega)
  have h9 : c ≠ '\\' := char_ne_of_toNat_ne (show c.toNat ≠ 92 by omega)
  simp [pathChar, h1, h2, h3, h4, h5, h6, h7, h8, h9]
  omega

theorem map_toUpper_all_asin {a : List Char} (h : a.all isAsinChar = true) :
    (a.map Char.toUpper).all isAsinChar = true := by
  refine List.all_eq_true.mpr fun c hc => ?_
  obtain ⟨c0, hc0, rfl⟩ := List.mem_map.mp hc
  exact toUpper_alnum_isAlphanum (List.all_eq_true.mp h c0 hc0)

theorem map_toUpper_idem_asin {a : List Char} (h : a.all isAsinChar = true) :
    (a.map Char.toUpper).map Char.toUpper = a.map Char.toUpper := by
  rw [List.map_map]
  refine List.map_congr_left fun c hc => ?_
  exact toUpper_idem_alnum (List.all_eq_true.mp h c hc)

theorem stripSlash_RecOk {r : UrlRec} (h : RecOk r) :
    RecOk { r with path := stripSlash r.path } := by
  by_cases hc : r.path ≠ ['/'] ∧ r.path.getLast? = some '/'
  · obtain ⟨t, hpt⟩ := h.path_head
    have hstrip : stripSlash r.path = r.path.dropLast := by
      unfold stripSlash
      rw [if_pos hc]
    have hrep : r.path = r.path.dropLast ++ ['/'] := eq_dropLast_append hc.2
    refine ⟨h.host_ne, h.host_ok, ?_, ?_, ?_, h.query_ok, h.frag_ok⟩
    · show ∃ t2, stripSlash r.path = '/' :: t2
      rw [hstrip]
      cases hq : r.path.dropLast with
      | nil =>
        exfalso
        apply hc.1
        rw [hrep, hq]
        rfl
      | cons c2 q2 =>
        refine ⟨q2, ?_⟩
        have hcons : r.path = c2 :: (q2 ++ ['/']) := by
          rw [hrep, hq]
          rfl
        rw [hpt] at hcons
        injection hcons with hc1 hc2
        rw [← hc1]
    · show (stripSlash r.path).all (fun c => c = '/' || pathChar c) = true
      rw [hstrip]
      refine List.all_eq_true.mpr fun x hx => ?_
      exact List.all_eq_true.mp h.path_ok x (List.dropLast_subset r.path hx)
    · show noDotSegs (stripSlash r.path) = true
      rw [hstrip]
      have hd := h.path_dots
      unfold noDotSegs at hd ⊢
      rw [hrep, splitOnChar_append_sep] at hd
      simp only [List.all_append, Bool.and_eq_true] at hd
      exact hd.1
  · have hstrip : stripSlash r.path = r.path := by
      unfold stripSlash
      rw [if_neg hc]
    rw [hstrip]
    exact h

theorem amazonStep_mk (sch host path : List Char) (q : Option (List QueryPair))
    (fr : Option (List Char)) :
    amazonStep ⟨sch, host, path, q, fr⟩ =
      if listHasSub "amazon.".data host then
        match findAsin path with
        | some a => ⟨sch, host, "/dp/".data ++ a.map Char.toUpper, none, fr⟩
        | none => ⟨sch, host, path, q, fr⟩
      else ⟨sch, host, path, q, fr⟩ := rfl

theorem amazonStep_scheme (r : UrlRec) : (amazonStep r).scheme = r.scheme := by
  unfold amazonStep
  split
  · split <;> rfl
  · rfl

theorem amazonStep_query (r : UrlRec) :
    (amazonStep r).query = r.query ∨ (amazonStep r).query = none := by
  unfold amazonStep
  split
  · split
    · exact Or.inr rfl
    · exact Or.inl rfl
  · exact Or.inl rfl

theorem amazonStep_RecOk {r : UrlRec} (h : RecOk r) : RecOk (amazonStep r) := by
  unfold amazonStep
  split
  · cases hfa : findAsin r.path with
    | none =>
      simp only [hfa]
      exact h
    | some a =>
      simp only [hfa]
      obtain ⟨hlen, hall⟩ := findAsin_spec hfa
      have hup : ∀ c ∈ a.map Char.toUpper,
          (48 ≤ c.toNat ∧ c.toNat ≤ 57) ∨ (65 ≤ c.toNat ∧ c.toNat ≤ 90) := by
        intro c hc
        obtain ⟨c0, hc0, rfl⟩ := List.mem_map.mp hc
        exact toUpper_alnum_bounds (List.all_eq_true.mp hall c0 hc0)
      have hslashnm : '/' ∉ a.map Char.toUpper := by
        intro hm
        have hb := hup '/' hm
        have h47 : ('/' : Char).toNat = 47 := rfl
        omega
      refine ⟨h.host_ne, h.host_ok, ?_, ?_, ?_, trivial, h.frag_ok⟩
      · exact ⟨'d' :: 'p' :: '/' :: a.map Char.toUpper, rfl⟩
      · show ("/dp/".data ++ a.map Char.toUpper).all
            (fun c => c = '/' || pathChar c) = true
        have hd : "/dp/".data ++ a.map Char.toUpper =
            '/' :: 'd' :: 'p' :: '/' :: a.map Char.toUpper := rfl
        rw [hd]
        simp only [List.all_cons, Bool.and_eq_true]
        refine ⟨by decide, by decide, by decide, by decide, ?_⟩
        refine List.all_eq_true.mpr fun c hc => ?_
        have hpc := pathChar_of_alnum_upper (hup c hc)
        simp [hpc]
      · show noDotSegs ("/dp/".data ++ a.map Char.toUpper) = true
        unfold noDotSegs
        have e1 : splitOnChar '/' ("/dp/".data ++ a.map Char.toUpper) =
            [[], ['d', 'p'], a.map Char.toUpper] := by
          have e2 : "/dp/".data ++ a.map Char.toUpper =
              [] ++ '/' :: (['d', 'p'] ++ '/' :: a.map Char.toUpper) := rfl
          rw [e2, splitOnChar_append (by simp), splitOnChar_append (by decide),
            splitOnChar_of_not_mem hslashnm]
        rw [e1]
        have hlen10 : (a.map Char.toUpper).length = 10 := by simp [hlen]
        have hne1 : a.map Char.toUpper ≠ ['.'] := by
          intro he
          rw [he] at hlen10
          simp at hlen10
        have hne2 : a.map Char.toUpper ≠ ['.', '.'] := by
          intro he
          rw [he] at hlen10
          simp at hlen10
        simp [hne1, hne2]
  · exact h

theorem normalizeCore_eq (r : UrlRec) :
    normalizeCore r =
      { amazonStep ⟨"https".data, r.host, r.path, stripTracking r.query, r.frag⟩ with
        path := stripSlash (amazonStep ⟨"https".data, r.host, r.path,
          stripTracking r.query, r.frag⟩).path } := rfl

theorem normalizeCore_scheme (r : UrlRec) :
    (normalizeCore r).scheme = "https".data := by
  rw [normalizeCore_eq]
  show (amazonStep ⟨"https".data, r.host, r.path, stripTracking r.query,
    r.frag⟩).scheme = "https".data
  rw [amazonStep_scheme]

theorem normalizeCore_query (r : UrlRec) :
    (normalizeCore r).query =
      (amazonStep ⟨"https".data, r.host, r.path, stripTracking r.query,
        r.frag⟩).query := rfl

theorem normalizeCore_noTracking (r : UrlRec) :
    NoTracking (normalizeCore r).query := by
  rw [normalizeCore_query]
  rcases amazonStep_query ⟨"https".data, r.host, r.path, stripTracking r.query,
    r.frag⟩ with h | h
  · rw [h]
    exact stripTracking_noTracking r.query
  · rw [h]
    exact trivial

theorem normalizeCore_RecOk {r : UrlRec} (h : RecOk r) :
    RecOk (normalizeCore r) := by
  have h2 : RecOk (⟨"https".data, r.host, r.path, stripTracking r.query,
      r.frag⟩ : UrlRec) :=
    ⟨h.host_ne, h.host_ok, h.path_head, h.path_ok, h.path_dots,
      stripTracking_canon h.query_ok, h.frag_ok⟩
  rw [normalizeCore_eq]
  exact stripSlash_RecOk (amazonStep_RecOk h2)

theorem amazonStep_normalizeCore (r : UrlRec) :
    amazonStep (normalizeCore r) = normalizeCore r := by
  rw [normalizeCore_eq]
  by_cases hamz : listHasSub "amazon.".data r.host = true
  · cases hfa : findAsin r.path with
    | some a =>
      obtain ⟨hlen, hall⟩ := findAsin_spec hfa
      have hstep : amazonStep ⟨"https".data, r.host, r.path, stripTracking r.query,
          r.frag⟩ = ⟨"https".data, r.host, "/dp/".data ++ a.map Char.toUpper, none,
          r.frag⟩ := by
        rw [amazonStep_mk, if_pos hamz, hfa]
      rw [hstep]
      have hmapne : a.map Char.toUpper ≠ [] := by
        intro he
        have hl := congrArg List.length he
        simp [hlen] at hl
      have hlast : ("/dp/".data ++ a.map Char.toUpper).getLast? ≠ some '/' := by
        rw [List.getLast?_append_of_ne_nil _ hmapne]
        rw [List.getLast?_eq_getLast _ hmapne]
        intro hsome
        injection hsome with hcq
        have hmem : (a.map Char.toUpper).getLast hmapne ∈ a.map Char.toUpper :=
          List.getLast_mem hmapne
        rw [hcq] at hmem
        obtain ⟨c0, hc0, hc0e⟩ := List.mem_map.mp hmem
        have h47 : c0.toUpper.toNat = 47 := by rw [hc0e]; decide
        rcases toUpper_alnum_bounds (List.all_eq_true.mp hall c0 hc0) with hb | hb <;>
          omega
      have hss : stripSlash ("/dp/".data ++ a.map Char.toUpper) =
          "/dp/".data ++ a.map Char.toUpper := by
        unfold stripSlash
        rw [if_neg]
        rintro ⟨hx1, hx2⟩
        exact hlast hx2
      have hrec : ({ (⟨"https".data, r.host, "/dp/".data ++ a.map Char.toUpper,
            none, r.frag⟩ : UrlRec) with
          path := stripSlash (⟨"https".data, r.host,
            "/dp/".data ++ a.map Char.toUpper, none, r.frag⟩ : UrlRec).path } :
            UrlRec) =
          ⟨"https".data, r.host, "/dp/".data ++ a.map Char.toUpper, none,
            r.frag⟩ := by
        show (⟨"https".data, r.host, stripSlash ("/dp/".data ++ a.map Char.toUpper),
          none, r.frag⟩ : UrlRec) = _
        rw [hss]
      rw [hrec]
      rw [amazonStep_mk, if_pos hamz]
      simp only [findAsin_dp (by simp [hlen]) (map_toUpper_all_asin hall)]
      rw [map_toUpper_idem_asin hall]
    | none =>
      have hstep : amazonStep ⟨"https".data, r.host, r.path, stripTracking r.query,
          r.frag⟩ = ⟨"https".data, r.host, r.path, stripTracking r.query,
          r.frag⟩ := by
        rw [amazonStep_mk, if_pos hamz, hfa]
      rw [hstep]
      have hrec : ({ (⟨"https".data, r.host, r.path, stripTracking r.query,
            r.frag⟩ : UrlRec) with
          path := stripSlash (⟨"https".data, r.host, r.path, stripTracking r.query,
            r.frag⟩ : UrlRec).path } : UrlRec) =
          ⟨"https".data, r.host, stripSlash r.path, stripTracking r.query,
            r.frag⟩ := rfl
      rw [hrec]
      have hfanone : findAsin (stripSlash r.path) = none := by
        unfold stripSlash
        split
        · next hcond =>
          apply findAsin_append_slash
          rw [← eq_dropLast_append hcond.2]
          exact hfa
        · exact hfa
      rw [amazonStep_mk, if_pos hamz]
      simp only [hfanone]
  · have hstep : amazonStep ⟨"https".data, r.host, r.path, stripTracking r.query,
        r.frag⟩ = ⟨"https".data, r.host, r.path, stripTracking r.query,
        r.frag⟩ := by
      rw [amazonStep_mk, if_neg hamz]
    rw [hstep]
    have hrec : ({ (⟨"https".data, r.host, r.path, stripTracking r.query,
          r.frag⟩ : UrlRec) with
        path := stripSlash (⟨"https".data, r.host, r.path, stripTracking r.query,
          r.frag⟩ : UrlRec).path } : UrlRec) =
        ⟨"https".data, r.host, stripSlash r.path, stripTracking r.query,
          r.frag⟩ := rfl
    rw [hrec]
    rw [amazonStep_mk, if_neg hamz]

theorem normalizeCore_idem {r : UrlRec}
    (hslash : noTrailingSlash (normalizeCore r).path = true) :
    normalizeCore (normalizeCore r) = normalizeCore r := by
  have hfix := amazonStep_normalizeCore r
  have hst : stripTracking (normalizeCore r).query = (normalizeCore r).query :=
    stripTracking_fixed (normalizeCore_noTracking r)
  have hss : stripSlash (normalizeCore r).path = (normalizeCore r).path :=
    stripSlash_noop hslash
  have hX2 : (⟨"https".data, (normalizeCore r).host, (normalizeCore r).path,
      stripTracking (normalizeCore r).query, (normalizeCore r).frag⟩ : UrlRec) =
      normalizeCore r := by
    refine UrlRec.ext' ?_ ?_ ?_ ?_ ?_
    · exact (normalizeCore_scheme r).symm
    · rfl
    · rfl
    · exact hst
    · rfl
  rw [normalizeCore_eq (normalizeCore r)]
  rw [hX2, hfix, hss]

theorem option_orElse_some {α : Type} {a b : Option α} {x : α}
    (h : (a <|> b) = some x) : a = some x ∨ b = some x := by
  cases a with
  | some y => exact Or.inl h
  | none => exact Or.inr h

theorem normalizeUrl_eq (sha : String → String) (input : String) :
    normalizeUrl sha input =
      match parseUrl input.data <|> parseUrl ("https://".data ++ input.data) with
      | none => none
      | some r0 =>
        some { normalized := String.mk (serializeUrl (normalizeCore r0)),
               hash := sha (String.mk (serializeUrl (normalizeCore r0))),
               hostname := String.mk ((normalizeCore r0).host.map Char.toLower) } :=
  rfl

/-- C7 counterexample: URL normalization is **not** idempotent.  The code
strips exactly one trailing slash, so the accepted input
`https://example.com/a//` normalizes to `https://example.com/a/`, and
normalizing that output strips the remaining slash and yields a different
normalized string (hence also a different hash). -/
theorem c7_normalize_idem_counterexample :
    ∃ r : NormResult,
      normalizeUrl (fun s => s) "https://example.com/a//" = some r ∧
      normalizeUrl (fun s => s) r.normalized ≠ some r := by
  refine ⟨⟨"https://example.com/a/", "https://example.com/a/", "example.com"⟩,
    by decide, by decide⟩

/-- C7 (amended): normalization is idempotent for every accepted input whose
once-normalized path carries no residual trailing slash (in particular
whenever the parsed path does not end in a double slash): re-running
`normalizeUrl` on the `normalized` output returns exactly the same
normalized string, hash and hostname. -/
theorem c7_normalize_idem_amended (sha : String → String) (u : String)
    (r : NormResult) (h : normalizeUrl sha u = some r)
    (hslash : ∀ r0, (parseUrl u.data <|> parseUrl ("https://".data ++ u.data)) =
      some r0 → noTrailingSlash (normalizeCore r0).path = true) :
    normalizeUrl sha r.normalized = some r := by
  rw [normalizeUrl_eq] at h
  cases hp : (parseUrl u.data <|> parseUrl ("https://".data ++ u.data)) with
  | none =>
    rw [hp] at h
    exact absurd h (by simp)
  | some r0 =>
    rw [hp] at h
    have hr0ok : RecOk r0 := by
      rcases option_orElse_some hp with hc | hc
      · exact parseUrl_RecOk hc
      · exact parseUrl_RecOk hc
    have hNok : RecOk (normalizeCore r0) := normalizeCore_RecOk hr0ok
    have hround : parseUrl (serializeUrl (normalizeCore r0)) =
        some (normalizeCore r0) :=
      parseUrl_serializeUrl hNok (normalizeCore_scheme r0)
    have hidem := normalizeCore_idem (hslash r0 hp)
    have hrn : r =
        { normalized := String.mk (serializeUrl (normalizeCore r0)),
          hash := sha (String.mk (serializeUrl (normalizeCore r0))),
          hostname := String.mk ((normalizeCore r0).host.map Char.toLower) } := by
      injection h with h
      exact h.symm
    have horelse : (parseUrl (String.mk (serializeUrl (normalizeCore r0))).data <|>
        parseUrl ("https://".data ++
          (String.mk (serializeUrl (normalizeCore r0))).data)) =
        some (normalizeCore r0) := by
      show (parseUrl (serializeUrl (normalizeCore r0)) <|>
        parseUrl ("https://".data ++ serializeUrl (normalizeCore r0))) =
        some (normalizeCore r0)
      rw [hround]
      rfl
    rw [hrn]
    show normalizeUrl sha (String.mk (serializeUrl (normalizeCore r0))) =
      some { normalized := String.mk (serializeUrl (normalizeCore r0)),
             hash := sha (String.mk (serializeUrl (normalizeCore r0))),
             hostname := String.mk ((normalizeCore r0).host.map Char.toLower) }
    rw [normalizeUrl_eq, horelse]
    simp only [hidem]

/-- C7 witness: the amended idempotence theorem applied to the concrete
input `example.com/product?utm_source=fb&id=1` (which exercises the
`https://` retry and the tracking-parameter strip). -/
theorem c7_normalize_idem_amended_witness :
    normalizeUrl (fun s => s) "example.com/product?utm_source=fb&id=1" =
      some ⟨"https://example.com/product?id=1", "https://example.com/product?id=1",
        "example.com"⟩ ∧
    normalizeUrl (fun s => s) "https://example.com/product?id=1" =
      some ⟨"https://example.com/product?id=1", "https://example.com/product?id=1",
        "example.com"⟩ := by
  have h1 : normalizeUrl (fun s => s) "example.com/product?utm_source=fb&id=1" =
      some ⟨"https://example.com/product?id=1", "https://example.com/product?id=1",
        "example.com"⟩ := by decide
  refine ⟨h1, ?_⟩
  have hsl : ∀ r0, (parseUrl ("example.com/product?utm_source=fb&id=1" : String).data <|>
      parseUrl ("https://".data ++
        ("example.com/product?utm_source=fb&id=1" : String).data)) = some r0 →
      noTrailingSlash (normalizeCore r0).path = true := by
    intro r0 hr
    have hx : some r0 = some (⟨"https".data, "example.com".data, "/product".data,
        some [⟨"utm_source".data, "fb".data⟩, ⟨"id".data, "1".data⟩], none⟩ :
          UrlRec) :=
      hr.symm.trans (by decide)
    injection hx with hx
    rw [hx]
    decide
  exact c7_normalize_idem_amended (fun s => s)
    "example.com/product?utm_source=fb&id=1" _ h1 hsl

/-! ## C8 — weak cache entries are misses -/

/-- **C8.** Cache lookup treats weak entries as misses: an absent entry is a
miss; an entry whose `expiresAt` has passed is a miss; an entry whose stored
preview is missing (JS-falsy) any of title/image/price/currency is a miss
even when `expiresAt` is in the future; in particular a preview without
`currency` is always weak; otherwise the stored preview is returned. -/
theorem c8_cache_weak_miss :
    (∀ now, getCachedPreview none now = none) ∧
    (∀ (e : CacheEntry) (now : Int), e.expiresAt < now →
      getCachedPreview (some e) now = none) ∧
    (∀ (e : CacheEntry) (now : Int), isWeakPreview e.preview = true →
      getCachedPreview (some e) now = none) ∧
    (∀ p : ProductPreview, p.currency = none → isWeakPreview p = true) ∧
    (∀ (e : CacheEntry) (now : Int), ¬ e.expiresAt < now →
      isWeakPreview e.preview = false →
      getCachedPreview (some e) now = some e.preview) := by
  refine ⟨fun _ => rfl, ?_, ?_, ?_, ?_⟩
  · intro e now h
    simp [getCachedPreview, h]
  · intro e now h
    by_cases hx : e.expiresAt < now <;> simp [getCachedPreview, hx, h]
  · intro p h
    simp [isWeakPreview, h, strTruthy]
  · intro e now hx hw
    simp [getCachedPreview, hx, hw]

/-- Witness for C8: the concrete unexpired entry without `currency` is a
miss, and a complete entry is a hit. -/
theorem c8_cache_weak_miss_witness :
    getCachedPreview (some noCurrencyEntry) 0 = none ∧
    getCachedPreview
      (some { noCurrencyEntry with
              preview := { noCurrencyEntry.preview with currency := some "USD" } }) 0 =
      some { noCurrencyEntry.preview with currency := some "USD" } := by
  refine ⟨c8_cache_weak_miss.2.2.1 noCurrencyEntry 0 (by decide), ?_⟩
  exact c8_cache_weak_miss.2.2.2.2 _ 0 (by decide) (by decide)

/-! ## C9 — confidence cap and Stage-3 escalation -/

theorem scorePreview_confidence_le (p : ProductPreview) :
    (scorePreview p).confidence ≤ 19 / 20 := by
  rw [scorePreview_confidence]
  have hs : ((if strTruthy p.title then (35 : ℚ) / 100 else 0) +
      (if strTruthy p.image then (25 : ℚ) / 100 else 0) +
      (if p.price.isSome ∧ strTruthy p.currency then (25 : ℚ) / 100 else 0) +
      (if strTruthy p.description then (1 : ℚ) / 10 else 0)) ≤ 19 / 20 := by
    split_ifs <;> norm_num
  rw [jsMin_one (lt_of_le_of_lt hs (by norm_num))]
  exact hs

theorem scorePreview_confidence_le_no_desc (p : ProductPreview)
    (h : strTruthy p.description = false) :
    (scorePreview p).confidence ≤ 17 / 20 := by
  rw [scorePreview_confidence, h]
  have hs : ((if strTruthy p.title then (35 : ℚ) / 100 else 0) +
      (if strTruthy p.image then (25 : ℚ) / 100 else 0) +
      (if p.price.isSome ∧ strTruthy p.currency then (25 : ℚ) / 100 else 0) +
      (if (false : Bool) then (1 : ℚ) / 10 else 0)) ≤ 17 / 20 := by
    split_ifs <;> try norm_num
    all_goals contradiction
  rw [jsMin_one (lt_of_le_of_lt hs (by norm_num))]
  exact hs

/-- **C9.** `scorePreview`'s confidence never exceeds 0.95 (the four weights
sum to 0.95, so the `Math.min(1, ...)` cap is never attained); a preview
without a (truthy) description scores at most 0.85; consequently
`needsBetterData(scored, 0.95)` is always `true` for a description-free
preview — on a restricted (amazon/walmart) host, Stage 3 is attempted
whenever the merged preview entering the rescore has no description, even
with title, image, price and currency all present. -/
theorem c9_confidence_cap :
    (∀ p, (scorePreview p).confidence ≤ 19 / 20) ∧
    (∀ p, strTruthy p.description = false → (scorePreview p).confidence ≤ 17 / 20) ∧
    (∀ p, strTruthy p.description = false →
      needsBetterData (scorePreview p) (19 / 20) = true) := by
  refine ⟨scorePreview_confidence_le, scorePreview_confidence_le_no_desc, ?_⟩
  intro p h
  have hlt : (scorePreview p).confidence < 19 / 20 :=
    lt_of_le_of_lt (scorePreview_confidence_le_no_desc p h)
      (by norm_num)
  simp [needsBetterData, hlt]

/-- Witness for C9 at a preview with title, image, price and currency all
present and no description: confidence 0.85 and Stage-3 escalation
demanded. -/
theorem c9_confidence_cap_witness :
    needsBetterData
      (scorePreview
        { url := "https://amazon.com/dp/B000000001", title := some "T",
          image := some "https://i/1.png", price := some 10,
          currency := some "USD", source := some .html, confidence := 0,
          warnings := some [] }) (19 / 20) = true :=
  c9_confidence_cap.2.2 _ (by decide)

/-! ## C1 — stage-level failure propagation -/

theorem amazon_norm :
    normalizeUrl (fun s => s) "amazon.com/dp/B000000001" =
      some { normalized := "https://amazon.com/dp/B000000001",
             hash := "https://amazon.com/dp/B000000001",
             hostname := "amazon.com" } := by decide

/-- **C1 counterexample.** A request that has passed auth, input validation,
rate limiting and the cache lookup, on an Amazon host needing Stage 3, whose
Bright Data trigger `fetch` throws (a network error): the exception
propagates out of `extractFromBrightData` — which wraps none of its network
calls in `try`/`catch` — and aborts the whole request instead of
contributing a null preview and a warning.  (In this model `Except.error`
arises only from an uncaught throw inside the Bright Data stage; every
pre-stage rejection is an `Except.ok` error response, so this request
reached Stage 3.) -/
theorem c1_bright_throw_counterexample :
    POST (fun s => s) brightThrowWorld = Except.error () := by
  have hrl : (checkRateLimit (fun _ => 0) "user-1" (2025, 0, 1, 0)).1 = true := by decide
  have hneed1 : needsBetterData
      (scorePreview (sparseS1 "https://amazon.com/dp/B000000001")) (3 / 4) = true :=
    needsBetterData_of_no_image _ _ (by decide)
  have hneed2 : needsBetterData
      (scorePreview (mergePreviews
        (scorePreview (sparseS1 "https://amazon.com/dp/B000000001")) none))
      (19 / 20) = true :=
    needsBetterData_of_no_image _ _ (by decide)
  have hrh : restrictedHost "amazon.com" = true := by decide
  have hdiffbot : (extractFromDiffbot ({} : DiffbotWorld)
      "https://amazon.com/dp/B000000001").1 = none := rfl
  have hstage3 : runStage3 brightThrowWorld.bright "https://amazon.com/dp/B000000001"
      "amazon.com"
      (scorePreview (mergePreviews
        (scorePreview (sparseS1 "https://amazon.com/dp/B000000001")) none)) =
      Except.error () := rfl
  simp only [POST, brightThrowWorld, amazon_norm, hrl, hneed1, hneed2, hrh, hdiffbot,
    getCachedPreview, not_true, Bool.not_true, Bool.false_eq_true,
    if_false, if_true, String.reduceEq, reduceCtorEq, ite_false, ite_true]
  exact hstage3

theorem diffbot_fail_warns (dw : DiffbotWorld) (url : String)
    (h : (extractFromDiffbot dw url).1 = none) : (extractFromDiffbot dw url).2 ≠ [] := by
  unfold extractFromDiffbot at h ⊢
  split_ifs at h ⊢ <;> try simp
  cases hobj : dw.objects with
  | none => simp [hobj]
  | some l =>
    cases l with
    | nil => simp [hobj]
    | cons o rest =>
      rw [hobj] at h
      simp at h

theorem pollLoop_ok (polls : List (Except Unit PollRes)) (progress : Option BStatus)
    (h : polls.all (fun p =>
      match p with
      | .ok pr => exOk pr.json
      | .error _ => false) = true) :
    exOk (pollLoop progress polls) = true := by
  induction polls generalizing progress with
  | nil => rfl
  | cons r rs ih =>
    cases r with
    | error e => simp at h
    | ok pr =>
      simp only [List.all_cons, Bool.and_eq_true] at h
      obtain ⟨h1, h2⟩ := h
      show exOk (if ¬ pr.ok = true then pollLoop progress rs
        else match pr.json with
          | .error e => .error e
          | .ok st =>
            if st.status = "completed" then .ok (some st)
            else pollLoop (some st) rs) = true
      by_cases hok : pr.ok = true
      · rw [if_neg (by simp [hok])]
        cases hj : pr.json with
        | error e =>
          rw [hj] at h1
          simp [exOk] at h1
        | ok st =>
          simp only [hj]
          by_cases hst : st.status = "completed"
          · rw [if_pos hst]
            rfl
          · rw [if_neg hst]
            exact ih _ h2
      · rw [if_pos hok]
        exact ih _ h2

theorem extractFromBrightData_ok (bw : BrightWorld) (url hostname : String)
    (h : bwNoThrow bw = true) :
    exOk (extractFromBrightData bw url hostname) = true := by
  unfold bwNoThrow at h
  simp only [Bool.and_eq_true] at h
  obtain ⟨⟨⟨⟨h1, h2⟩, h3⟩, h4⟩, h5⟩ := h
  have hpl := pollLoop_ok bw.polls none h3
  unfold extractFromBrightData
  repeat' split
  all_goals first | rfl | simp_all [exOk]

theorem runStage3_ok (bw : BrightWorld) (url hostname : String)
    (preview : ProductPreview) (h : bwNoThrow bw = true) :
    exOk (runStage3 bw url hostname preview) = true := by
  unfold runStage3
  cases hx : extractFromBrightData bw url hostname with
  | error e =>
    have := extractFromBrightData_ok bw url hostname h
    rw [hx] at this
    simp [exOk] at this
  | ok r =>
    cases r
    rfl

theorem POST_ok_of_bwNoThrow (sha : String → String) (w : World)
    (h : bwNoThrow w.bright = true) : exOk (POST sha w) = true := by
  unfold POST
  cases w.auth with
  | missingToken => rfl
  | invalidToken => rfl
  | otherFailure => rfl
  | ok uid =>
    cases w.body with
    | badJson => rfl
    | missingUrl => rfl
    | urlStr u =>
      by_cases hu : u = ""
      · simp [hu, exOk]
      · simp only [hu, if_false, ite_false]
        cases hn : normalizeUrl sha u with
        | none => simp [exOk]
        | some nres =>
          simp only []
          by_cases hb : (checkRateLimit w.rl uid w.date).1
          · simp only [hb, not_true, if_false, ite_false, ite_true]
            cases hc : getCachedPreview (w.cache nres.hash) w.nowMs with
            | some cached => simp [exOk]
            | none =>
              simp only []
              repeat' split
              all_goals first | rfl | exact runStage3_ok _ _ _ _ h
          · simp [hb, exOk]

theorem extractFromBrightData_fail_warns (bw : BrightWorld) (url hostname : String)
    (r : Option ProductPreview × List String)
    (hok : extractFromBrightData bw url hostname = .ok r) (hnone : r.1 = none) :
    r.2 ≠ [] := by
  unfold extractFromBrightData at hok
  repeat' split at hok
  all_goals
    first
    | (simp at hok; done)
    | (injection hok with hr
       rw [← hr] at hnone ⊢
       first | (simp; done) | simp at hnone)

/-- **C1 (amended).** Stage-level failures that surface as *values* never
abort the pipeline: every `extractFromDiffbot` failure (its whole body is
wrapped in `try`/`catch`) and every non-throwing `extractFromBrightData`
failure — missing configuration, a non-success trigger response, a missing
snapshot id, the job not completing in time, a non-success download, an
empty dataset — yields a null preview together with a warning, and `POST`
then proceeds to FINALIZE (its result is an HTTP response, never a thrown
exception).  However — this is the correction — an exception *thrown*
inside `extractFromBrightData` (a trigger/poll/download network error or a
`json()` parse throw) is not caught anywhere and aborts the request, as the
counterexample shows. -/
theorem c1_stage_failures_amended :
    (∀ (dw : DiffbotWorld) (url : String),
      (extractFromDiffbot dw url).1 = none → (extractFromDiffbot dw url).2 ≠ []) ∧
    (∀ (bw : BrightWorld) (url hostname : String), bwNoThrow bw = true →
      exOk (extractFromBrightData bw url hostname) = true) ∧
    (∀ (bw : BrightWorld) (url hostname : String)
      (r : Option ProductPreview × List String),
      extractFromBrightData bw url hostname = .ok r → r.1 = none → r.2 ≠ []) ∧
    (∀ (sha : String → String) (w : World), bwNoThrow w.bright = true →
      exOk (POST sha w) = true) :=
  ⟨diffbot_fail_warns, extractFromBrightData_ok, extractFromBrightData_fail_warns,
    POST_ok_of_bwNoThrow⟩

/-- Witness for the amended C1: a concrete failing Diffbot stage carries a
warning, a concrete no-throw Bright Data world yields an `ok` result, and a
concrete request world with a no-throw Bright Data stage produces a
response rather than an exception. -/
theorem c1_stage_failures_amended_witness :
    (extractFromDiffbot ({} : DiffbotWorld) "https://example.com/x").2 ≠ [] ∧
    exOk (extractFromBrightData unauthWorld.bright "https://amazon.com/dp/B000000001"
      "amazon.com") = true ∧
    exOk (POST (fun s => s) unauthWorld) = true := by
  refine ⟨c1_stage_failures_amended.1 ({} : DiffbotWorld) "https://example.com/x" rfl,
    c1_stage_failures_amended.2.1 unauthWorld.bright _ _ (by decide),
    c1_stage_failures_amended.2.2.2 (fun s => s) unauthWorld (by decide)⟩

/-! ## C10 — warnings accumulate without deduplication -/

theorem doubleWarn_norm :
    normalizeUrl (fun s => s) "https://example.com/a" =
      some { normalized := "https://example.com/a", hash := "https://example.com/a",
             hostname := "example.com" } := by decide

theorem post_eval_doubleWarnWorld :
    POST (fun s => s) doubleWarnWorld =
      .ok (finalizeResp (scorePreview (mergePreviews
        (scorePreview (sparseS1 "https://example.com/a")) none))) := by
  have hrl : (checkRateLimit (fun _ => 0) "user-2" (2025, 0, 1, 0)).1 = true := by decide
  have hneed : needsBetterData (scorePreview (sparseS1 "https://example.com/a"))
      (3 / 4) = true :=
    needsBetterData_of_no_image _ _ (by decide)
  have hdiffbot : (extractFromDiffbot ({} : DiffbotWorld) "https://example.com/a").1
      = none := rfl
  simp only [POST, doubleWarnWorld, doubleWarn_norm, hrl, hneed, hdiffbot,
    restrictedHost_example, getCachedPreview, Bool.not_true, Bool.false_eq_true,
    if_false, if_true, String.reduceEq, reduceCtorEq, ite_false, ite_true,
    not_true]

/-- **C10.** Every scoring pass appends a fresh copy of each applicable
missing-field warning to the preview's existing list (in the push order
image, price-or-currency, title); merging concatenates both inputs' warning
lists; and in the concrete pipeline run `doubleWarnWorld` (Stage 1 yields
only a title, Stage 2 returns no preview) the final response carries each
still-applicable warning twice — once per scoring pass. -/
theorem c10_warning_accumulation :
    (∀ p, (scorePreview p).warnings =
      some (p.warnings.getD [] ++ missingFieldWarnings p)) ∧
    (∀ b o, (mergePreviews b (some o)).warnings =
      some (b.warnings.getD [] ++ o.warnings.getD [])) ∧
    warnCount (POST (fun s => s) doubleWarnWorld) "Missing product image" = 2 ∧
    warnCount (POST (fun s => s) doubleWarnWorld) "Missing price or currency" = 2 := by
  refine ⟨?_, fun b o => rfl, ?_, ?_⟩
  · intro p
    simp [scorePreview, missingFieldWarnings, List.append_assoc]
  · rw [post_eval_doubleWarnWorld]
    decide
  · rw [post_eval_doubleWarnWorld]
    decide

end ListyIngest
